import Mathlib

/-!
Verification of the DAG-orchestration and state subsystem of the agentic
harness (TaskGraph validation and scheduling, GraphExecutor batching and
retry, MemoryStore, SessionStore, PlaybookStore, Curator).

The definitions below are shallow embeddings of the TypeScript sources in
src/packages/core.  JavaScript numbers are modelled as Nat / Rat, JS string
falsiness (the || operator on possibly-empty or missing values) is modelled
by explicit helpers, Maps keyed by strings are modelled as association
lists with the same insertion-order semantics, and wall-clock values
(Date.now, new Date().toISOString, uuidv4) are modelled as explicitly
passed oracle parameters since they carry no logical weight.
-/

namespace TheAgent

/-- JS `x || d` for numbers (0 is falsy). -/
def jsOrNat (x d : Nat) : Nat := if x = 0 then d else x

/-- JS `x || d` for (rational-modelled) numbers (0 is falsy). -/
def jsOrRat (x d : ℚ) : ℚ := if x = 0 then d else x

/-- JS `x || d` for an optional string (undefined and "" are falsy). -/
def jsOrStr (x : Option String) (d : String) : String :=
  match x with
  | some s => if s = "" then d else s
  | none => d

/-- JS template interpolation of a possibly-undefined value renders
`undefined`. -/
def jsShow (x : Option String) : String :=
  match x with
  | some s => s
  | none => "undefined"

/-! ## TaskGraph model (src/packages/core/types + dag/TaskGraph.ts)

`NodeSpec` keeps the fields the verified operations read: id, deps,
type/objective (used by the Curator fallback op), the artifact namespace of
the node scope (used by Curator.curate) and the retry policy (used by
GraphExecutor).  The remaining NodeSpec fields (skillHints, io, acceptance,
budgets, …) are never read by the functions verified here. -/

structure RetryPolicy where
  retriesAllowed : Bool
  maxAttempts : Nat
  intervalSeconds : ℚ
  backoffRate : ℚ
deriving DecidableEq, Repr

structure Scope where
  artifactNamespace : String
deriving DecidableEq, Repr

structure NodeSpec where
  id : String
  type : String
  objective : String
  deps : List String
  scope : Scope
  retryPolicy : Option RetryPolicy
deriving DecidableEq, Repr

structure GlobalConfig where
  maxParallelism : Nat
deriving DecidableEq, Repr

structure TaskGraph where
  runId : String
  nodes : List NodeSpec
  global : GlobalConfig
deriving DecidableEq, Repr

/-- `new Map(graph.nodes.map(n => [n.id, n]))`: on duplicate keys the later
entry wins, so lookup returns the last node with the given id. -/
def lookupNode (g : TaskGraph) (id : String) : Option NodeSpec :=
  g.nodes.foldl (fun acc n => if n.id = id then some n else acc) none

/-- The dependency list the DFS follows from a node id (empty when the id is
not in the node map, mirroring the `if (node)` guard). -/
def depsOf (g : TaskGraph) (id : String) : List String :=
  match lookupNode g id with
  | some n => n.deps
  | none => []

/-- A dependency edge of the graph: some node with id `u` lists `v` among
its deps. -/
def edgeB (g : TaskGraph) (u v : String) : Bool :=
  g.nodes.any (fun n => n.id = u && v ∈ n.deps)

/-- `TaskGraphUtils.getReadyNodes`: nodes not yet completed whose every
dependency id is completed. -/
def getReadyNodes (g : TaskGraph) (completedNodeIds : List String) : List NodeSpec :=
  g.nodes.filter (fun node =>
    if node.id ∈ completedNodeIds then false
    else node.deps.all (fun dep => dep ∈ completedNodeIds))

/-! ### Cycle detection (TaskGraphUtils.detectCycles)

The recursive `dfs` closure of the source mutates three pieces of state:
the `visited` set, the `recursionStack` set and the `path` array.  We
thread them explicitly.  The nested recursion (dfs recursing through the
dep loop) is expressed as a single function on the remaining dep list,
with a structural fuel so that the definition is kernel-computable; fuel
sufficiency is proved below (`dfsDeps_fuel`). -/

structure DfsState where
  visited : List String
  rstack : List String
  path : List String
deriving DecidableEq, Repr

/-- Push a node at the start of `dfs(nodeId)`:
visited.add / recursionStack.add / path.push. -/
def dfsPush (nodeId : String) (s : DfsState) : DfsState :=
  ⟨nodeId :: s.visited, nodeId :: s.rstack, s.path ++ [nodeId]⟩

/-- Pop a node when `dfs(nodeId)` returns false:
path.pop / recursionStack.delete. -/
def dfsPop (nodeId : String) (s : DfsState) : DfsState :=
  ⟨s.visited, s.rstack.erase nodeId, s.path.dropLast⟩

/-- The dep loop of `dfs`, with the recursive visit of an unvisited dep
inlined.  Returns `none` only on fuel exhaustion. -/
def dfsDeps (g : TaskGraph) : Nat → List String → DfsState → Option (Bool × DfsState)
  | _, [], s => some (false, s)
  | 0, _ :: _, _ => none
  | fuel + 1, dep :: rest, s =>
    if dep ∈ s.visited then
      if dep ∈ s.rstack then
        some (true, ⟨s.visited, s.rstack, s.path ++ [dep]⟩)
      else
        dfsDeps g fuel rest s
    else
      match dfsDeps g fuel (depsOf g dep) (dfsPush dep s) with
      | none => none
      | some (true, s2) => some (true, s2)
      | some (false, s2) => dfsDeps g fuel rest (dfsPop dep s2)

/-- One top-level `dfs(nodeId)` call. -/
def dfsVisit (g : TaskGraph) (fuel : Nat) (nodeId : String) (s : DfsState) :
    Option (Bool × DfsState) :=
  match dfsDeps g fuel (depsOf g nodeId) (dfsPush nodeId s) with
  | none => none
  | some (true, s2) => some (true, s2)
  | some (false, s2) => some (false, dfsPop nodeId s2)

/-- The universe of ids the DFS can ever touch. -/
def idUniverse (g : TaskGraph) : List String :=
  (g.nodes.map (fun n => n.id) ++ g.nodes.flatMap (fun n => n.deps)).dedup

/-- Fuel potential: one unit per remaining dep-list entry plus, for each
not-yet-visited universe id, one visit step and its dep-list length. -/
def dfsPot (g : TaskGraph) (visited : List String) : Nat :=
  (((idUniverse g).filter (fun i => i ∉ visited)).map
    (fun i => 1 + (depsOf g i).length)).sum

/-- Ample fuel for any DFS run on `g`. -/
def dfsFuel (g : TaskGraph) : Nat := dfsPot g [] + 1

/-- The outer loop of `detectCycles`: visit every unvisited node; on the
first back edge report the current path. -/
def detectCyclesAux (g : TaskGraph) : List NodeSpec → DfsState → Option (Option (List String))
  | [], _ => some none
  | n :: rest, s =>
    if n.id ∈ s.visited then detectCyclesAux g rest s
    else
      match dfsVisit g (dfsFuel g) n.id s with
      | none => none
      | some (true, s2) => some (some s2.path)
      | some (false, s2) => detectCyclesAux g rest s2

/-- `TaskGraphUtils.detectCycles`: `some path` when a cycle was reported,
`none` otherwise.  Fuel sufficiency (proved below) shows the inner
`Option` wrapper never degenerates. -/
def detectCycles (g : TaskGraph) : Option (List String) :=
  match detectCyclesAux g g.nodes ⟨[], [], []⟩ with
  | some r => r
  | none => none

/-- `TaskGraphUtils.validate`: duplicate ids, dangling deps, cycles. -/
def validate (g : TaskGraph) : Bool × List String :=
  let nodeIds := g.nodes.map (fun n => n.id)
  let dupErrors :=
    if nodeIds.dedup.length ≠ g.nodes.length then ["Duplicate node IDs detected"] else []
  let danglingErrors :=
    g.nodes.flatMap (fun node =>
      node.deps.filterMap (fun dep =>
        if dep ∈ nodeIds then none
        else some ("Node " ++ node.id ++ " depends on non-existent node " ++ dep)))
  let cycleErrors :=
    match detectCycles g with
    | some cyc => ["Cycle detected: " ++ String.intercalate " -> " cyc]
    | none => []
  let errors := dupErrors ++ danglingErrors ++ cycleErrors
  (errors.isEmpty, errors)

/-! ### The ready-set iteration of claim C1 -/

/-- Iterate `getReadyNodes` from a completed-id set, marking every returned
node completed, collecting the returned batches.  Stops when the ready set
is empty or the fuel runs out. -/
def readyIter (g : TaskGraph) : Nat → List String → List (List NodeSpec)
  | 0, _ => []
  | fuel + 1, completed =>
    let ready := getReadyNodes g completed
    if ready.isEmpty then []
    else ready :: readyIter g fuel (completed ++ ready.map (fun n => n.id))

/-! ### Semantic notions for the graph claims -/

/-- The edge relation followed by the DFS (through the node map). -/
def lookEdge (g : TaskGraph) (u v : String) : Prop := v ∈ depsOf g u

instance (g : TaskGraph) (u v : String) : Decidable (lookEdge g u v) :=
  inferInstanceAs (Decidable (v ∈ depsOf g u))

/-- Boolean chain predicate: every consecutive pair is related. -/
def chainB (R : String → String → Bool) : List String → Bool
  | [] => true
  | [_] => true
  | a :: b :: rest => R a b && chainB R (b :: rest)

theorem chainB_iff (R : String → String → Bool) :
    ∀ l : List String, chainB R l = true ↔ List.Chain' (fun a b => R a b = true) l := by
  intro l
  induction l with
  | nil => simp [chainB]
  | cons a l ih =>
    cases l with
    | nil => simp [chainB]
    | cons b rest =>
      rw [List.chain'_cons, ← ih]
      simp [chainB]

/-- An actual dependency cycle of the graph: at least one edge, consecutive
elements are dependency edges, and the path returns to its starting node. -/
def IsCycle (g : TaskGraph) (c : List String) : Prop :=
  2 ≤ c.length ∧ c.head? = c.getLast? ∧ chainB (edgeB g) c = true

instance (g : TaskGraph) (c : List String) : Decidable (IsCycle g c) :=
  inferInstanceAs (Decidable (2 ≤ c.length ∧ c.head? = c.getLast? ∧ chainB (edgeB g) c = true))

/-! ### Basic facts about the node map -/

theorem lookupNode_mem (g : TaskGraph) (id : String) (n : NodeSpec)
    (h : lookupNode g id = some n) : n ∈ g.nodes ∧ n.id = id := by
  unfold lookupNode at h
  suffices H : ∀ (l : List NodeSpec) (acc : Option NodeSpec),
      (∀ m, acc = some m → m ∈ g.nodes ∧ m.id = id) →
      (∀ m, m ∈ l → m ∈ g.nodes) →
      (l.foldl (fun acc n => if n.id = id then some n else acc) acc = some n) →
      n ∈ g.nodes ∧ n.id = id by
    exact H g.nodes none (by simp) (fun m hm => hm) h
  intro l
  induction l with
  | nil => intro acc hacc _ hf; exact hacc n hf
  | cons a l ih =>
    intro acc hacc hl hf
    simp only [List.foldl_cons] at hf
    by_cases ha : a.id = id
    · exact ih (some a) (by intro m hm; cases hm; exact ⟨hl a (by simp), ha⟩)
        (fun m hm => hl m (by simp [hm])) (by simpa [ha] using hf)
    · exact ih acc hacc (fun m hm => hl m (by simp [hm])) (by simpa [ha] using hf)

theorem lookEdge_edgeB (g : TaskGraph) (u v : String) (h : lookEdge g u v) :
    edgeB g u v = true := by
  unfold lookEdge depsOf at h
  unfold edgeB
  cases hl : lookupNode g u with
  | none => simp [hl] at h
  | some n =>
    rcases lookupNode_mem g u n hl with ⟨hmem, hid⟩
    rw [hl] at h
    simp only [List.any_eq_true]
    exact ⟨n, hmem, by simp [hid, h]⟩

theorem depsOf_sub_univ (g : TaskGraph) (id : String) :
    ∀ d ∈ depsOf g id, d ∈ idUniverse g := by
  intro d hd
  unfold depsOf at hd
  cases hl : lookupNode g id with
  | none => simp [hl] at hd
  | some n =>
    rw [hl] at hd
    rcases lookupNode_mem g id n hl with ⟨hmem, _⟩
    unfold idUniverse
    rw [List.mem_dedup]
    exact List.mem_append_right _ (List.mem_flatMap.mpr ⟨n, hmem, hd⟩)

theorem nodeId_mem_univ (g : TaskGraph) (n : NodeSpec) (h : n ∈ g.nodes) :
    n.id ∈ idUniverse g := by
  unfold idUniverse
  rw [List.mem_dedup]
  exact List.mem_append_left _ (List.mem_map_of_mem _ h)

/-- With unique node ids, looking up a member node returns that node. -/
theorem lookupNode_of_nodup (g : TaskGraph)
    (hnd : (g.nodes.map (fun n => n.id)).Nodup) (n : NodeSpec) (hn : n ∈ g.nodes) :
    lookupNode g n.id = some n := by
  cases hl : lookupNode g n.id with
  | none =>
    exfalso
    -- a fold over a list containing a hit cannot end at none
    unfold lookupNode at hl
    suffices H : ∀ (l : List NodeSpec) (acc : Option NodeSpec), n ∈ l ∨ (∃ m, acc = some m) →
        l.foldl (fun acc k => if k.id = n.id then some k else acc) acc ≠ none by
      exact H g.nodes none (Or.inl hn) hl
    intro l
    induction l with
    | nil =>
      rintro acc (h | ⟨m, hm⟩) h2
      · simp at h
      · subst hm; simp at h2
    | cons a l ih =>
      rintro acc (h | ⟨m, hm⟩) h2
      · simp only [List.foldl_cons] at h2
        rcases List.mem_cons.mp h with rfl | h
        · exact ih _ (Or.inr (by simp)) h2
        · by_cases ha : a.id = n.id
          · exact ih _ (Or.inr (by simp [ha])) h2
          · exact ih _ (Or.inl h) (by simpa [ha] using h2)
      · simp only [List.foldl_cons] at h2
        by_cases ha : a.id = n.id
        · exact ih _ (Or.inr (by simp [ha])) h2
        · exact ih _ (Or.inr ⟨m, hm⟩) (by simpa [ha, hm] using h2)
  | some m =>
    rcases lookupNode_mem g n.id m hl with ⟨hmem, hid⟩
    have hmn : m = n := List.inj_on_of_nodup_map hnd hmem hn hid
    rw [hmn]

/-- With unique node ids, every graph edge is a node-map edge. -/
theorem edgeB_lookEdge (g : TaskGraph)
    (hnd : (g.nodes.map (fun n => n.id)).Nodup) (u v : String)
    (h : edgeB g u v = true) : lookEdge g u v := by
  unfold edgeB at h
  simp only [List.any_eq_true, Bool.and_eq_true, decide_eq_true_eq] at h
  rcases h with ⟨n, hn, hid, hv⟩
  unfold lookEdge depsOf
  rw [← hid, lookupNode_of_nodup g hnd n hn]
  simpa using hv

/-! ### Fuel adequacy of the DFS -/

theorem filter_map_sum_le {α : Type} (f : α → Nat) (p q : α → Bool)
    (himp : ∀ a, p a = true → q a = true) :
    ∀ l : List α, ((l.filter p).map f).sum ≤ ((l.filter q).map f).sum := by
  intro l
  induction l with
  | nil => simp
  | cons a l ih =>
    by_cases hp : p a = true
    · have hq := himp a hp
      simp [List.filter_cons, hp, hq]
      omega
    · by_cases hq : q a = true
      · simp [List.filter_cons, hp, hq]
        omega
      · simp [List.filter_cons, hp, hq]
        exact ih

theorem dfsPot_anti (g : TaskGraph) (v v' : List String)
    (h : ∀ x ∈ v, x ∈ v') : dfsPot g v' ≤ dfsPot g v := by
  unfold dfsPot
  apply filter_map_sum_le
  intro a ha
  simp only [decide_eq_true_eq] at ha ⊢
  intro hmem
  exact ha (h a hmem)

theorem filter_notmem_cons_sum (f : String → Nat) (dep : String) (v : List String)
    (hv : dep ∉ v) :
    ∀ l : List String, l.Nodup → dep ∈ l →
      ((l.filter (fun i => i ∉ v)).map f).sum =
        ((l.filter (fun i => i ∉ dep :: v)).map f).sum + f dep := by
  intro l
  induction l with
  | nil => intro _ h; simp at h
  | cons a l ih =>
    intro hnd hmem
    rcases List.mem_cons.mp hmem with rfl | hmem
    · have hnl : dep ∉ l := (List.nodup_cons.mp hnd).1
      have heq : l.filter (fun i => decide (i ∉ v)) = l.filter (fun i => decide (i ∉ dep :: v)) := by
        apply List.filter_congr
        intro x hx
        have hxd : x ≠ dep := fun h => hnl (h ▸ hx)
        simp [List.mem_cons, hxd]
      have e1 : (dep :: l).filter (fun i => decide (i ∉ v)) =
          dep :: l.filter (fun i => decide (i ∉ v)) := by
        rw [List.filter_cons, if_pos (by simpa using hv)]
      have e2 : (dep :: l).filter (fun i => decide (i ∉ dep :: v)) =
          l.filter (fun i => decide (i ∉ dep :: v)) := by
        rw [List.filter_cons, if_neg (by simp)]
      rw [e1, e2, heq, List.map_cons, List.sum_cons]
      omega
    · have hand : a ≠ dep := by
        rintro rfl
        exact (List.nodup_cons.mp hnd).1 hmem
      have ihl := ih (List.nodup_cons.mp hnd).2 hmem
      by_cases hav : a ∈ v
      · have e1 : (a :: l).filter (fun i => decide (i ∉ v)) =
            l.filter (fun i => decide (i ∉ v)) := by
          rw [List.filter_cons, if_neg (by simpa using hav)]
        have e2 : (a :: l).filter (fun i => decide (i ∉ dep :: v)) =
            l.filter (fun i => decide (i ∉ dep :: v)) := by
          rw [List.filter_cons, if_neg (by simp [List.mem_cons, hav])]
        rw [e1, e2]
        exact ihl
      · have e1 : (a :: l).filter (fun i => decide (i ∉ v)) =
            a :: l.filter (fun i => decide (i ∉ v)) := by
          rw [List.filter_cons, if_pos (by simpa using hav)]
        have e2 : (a :: l).filter (fun i => decide (i ∉ dep :: v)) =
            a :: l.filter (fun i => decide (i ∉ dep :: v)) := by
          rw [List.filter_cons, if_pos (by simp [List.mem_cons, hav, hand])]
        rw [e1, e2, List.map_cons, List.sum_cons, List.map_cons, List.sum_cons]
        omega

theorem dfsPot_push (g : TaskGraph) (dep : String) (v : List String)
    (hu : dep ∈ idUniverse g) (hv : dep ∉ v) :
    dfsPot g v = dfsPot g (dep :: v) + (1 + (depsOf g dep).length) := by
  unfold dfsPot
  exact filter_notmem_cons_sum _ dep v hv (idUniverse g) (List.nodup_dedup _) hu

theorem dfsDeps_visited_mono (g : TaskGraph) :
    ∀ (fuel : Nat) (deps : List String) (s : DfsState) (b : Bool) (s' : DfsState),
      dfsDeps g fuel deps s = some (b, s') → ∀ x ∈ s.visited, x ∈ s'.visited := by
  intro fuel
  induction fuel with
  | zero =>
    intro deps s b s' h
    cases deps with
    | nil => cases h; intro x hx; exact hx
    | cons d rest => simp [dfsDeps] at h
  | succ fuel ih =>
    intro deps s b s' h
    cases deps with
    | nil => cases h; intro x hx; exact hx
    | cons d rest =>
      simp only [dfsDeps] at h
      by_cases hvis : d ∈ s.visited
      · rw [if_pos hvis] at h
        by_cases hst : d ∈ s.rstack
        · rw [if_pos hst] at h
          cases h
          intro x hx; exact hx
        · rw [if_neg hst] at h
          exact ih rest s b s' h
      · rw [if_neg hvis] at h
        cases hnest : dfsDeps g fuel (depsOf g d) (dfsPush d s) with
        | none => rw [hnest] at h; cases h
        | some r =>
          obtain ⟨b2, s2⟩ := r
          rw [hnest] at h
          cases b2 with
          | true =>
            cases h
            intro x hx
            have := ih _ _ _ _ hnest x (by simp [dfsPush, hx])
            exact this
          | false =>
            have h2 := ih _ _ _ _ h
            intro x hx
            have hx2 : x ∈ s2.visited := ih _ _ _ _ hnest x (by simp [dfsPush, hx])
            exact h2 x (by simp [dfsPop, hx2])

theorem dfsDeps_fuel (g : TaskGraph) :
    ∀ (fuel : Nat) (deps : List String) (s : DfsState),
      (∀ d ∈ deps, d ∈ idUniverse g) →
      deps.length + dfsPot g s.visited ≤ fuel →
      dfsDeps g fuel deps s ≠ none := by
  intro fuel
  induction fuel with
  | zero =>
    intro deps s hd hf
    cases deps with
    | nil => simp [dfsDeps]
    | cons d rest => simp at hf
  | succ fuel ih =>
    intro deps s hd hf
    cases deps with
    | nil => simp [dfsDeps]
    | cons d rest =>
      simp only [dfsDeps]
      by_cases hvis : d ∈ s.visited
      · rw [if_pos hvis]
        by_cases hst : d ∈ s.rstack
        · rw [if_pos hst]; simp
        · rw [if_neg hst]
          apply ih rest s (fun x hx => hd x (by simp [hx]))
          simp only [List.length_cons] at hf
          omega
      · rw [if_neg hvis]
        have hdu : d ∈ idUniverse g := hd d (by simp)
        have hpush := dfsPot_push g d s.visited hdu hvis
        have hnested : dfsDeps g fuel (depsOf g d) (dfsPush d s) ≠ none := by
          apply ih _ _ (depsOf_sub_univ g d)
          simp only [dfsPush]
          simp only [List.length_cons] at hf
          omega
        cases hnest : dfsDeps g fuel (depsOf g d) (dfsPush d s) with
        | none => exact absurd hnest hnested
        | some r =>
          obtain ⟨b2, s2⟩ := r
          cases b2 with
          | true => simp
          | false =>
            simp only
            have hmono := dfsDeps_visited_mono g fuel _ _ _ _ hnest
            have hpot : dfsPot g s2.visited ≤ dfsPot g (d :: s.visited) := by
              apply dfsPot_anti
              intro x hx
              exact hmono x (by simp [dfsPush, hx])
            apply ih rest _ (fun x hx => hd x (by simp [hx]))
            simp only [dfsPop]
            simp only [List.length_cons] at hf
            omega

/-! ### The DFS invariant

`OrdInv g s ord` says: `ord` lists, in the order they were finished, the
nodes that are visited but no longer on the recursion stack, and every
dependency of a finished node is finished strictly earlier. -/

/-- Every dependency of an element of `ord` occurs strictly earlier in
`ord`. -/
def OrdClosed (g : TaskGraph) (ord : List String) : Prop :=
  ∀ i x, ord[i]? = some x → ∀ y ∈ depsOf g x, y ∈ ord.take i

structure OrdInv (g : TaskGraph) (s : DfsState) (ord : List String) : Prop where
  nodup : ord.Nodup
  mem : ∀ x, x ∈ ord ↔ (x ∈ s.visited ∧ x ∉ s.rstack)
  closed : OrdClosed g ord

/-- Main invariant preservation for the dep loop of the DFS.  Either a back
edge was reported and the resulting path is a chain ending in a repeated
node, or the call returns with stack and path restored, visited grown, and
an extended finish order covering all processed deps. -/
theorem dfsDeps_spec (g : TaskGraph) :
    ∀ (fuel : Nat) (deps : List String) (s : DfsState) (ord : List String)
      (t : String) (stk : List String) (b : Bool) (s' : DfsState),
      dfsDeps g fuel deps s = some (b, s') →
      s.rstack = t :: stk →
      s.rstack.Nodup →
      (∀ x ∈ s.rstack, x ∈ s.visited) →
      s.path = s.rstack.reverse →
      List.Chain' (lookEdge g) s.path →
      OrdInv g s ord →
      (∀ d ∈ deps, d ∈ depsOf g t) →
      ((b = true ∧ ∃ q d, s'.path = q ++ [d] ∧ d ∈ q ∧ List.Chain' (lookEdge g) s'.path)
      ∨ (b = false ∧ s'.rstack = s.rstack ∧ s'.path = s.path ∧
          (∀ x ∈ s.visited, x ∈ s'.visited) ∧
          ∃ ext, OrdInv g s' (ord ++ ext) ∧ ∀ d ∈ deps, d ∈ ord ++ ext)) := by
  intro fuel
  induction fuel with
  | zero =>
    intro deps s ord t stk b s' h hstk hnd hsub hpath hchain hord hdeps
    cases deps with
    | nil =>
      cases h
      refine Or.inr ⟨rfl, rfl, rfl, fun x hx => hx, [], ?_, by simp⟩
      simpa using hord
    | cons d rest => simp [dfsDeps] at h
  | succ fuel ih =>
    intro deps s ord t stk b s' h hstk hnd hsub hpath hchain hord hdeps
    cases deps with
    | nil =>
      cases h
      refine Or.inr ⟨rfl, rfl, rfl, fun x hx => hx, [], ?_, by simp⟩
      simpa using hord
    | cons d rest =>
      have hedge_td : lookEdge g t d := hdeps d (by simp)
      have hlast : s.path.getLast? = some t := by
        rw [hpath, hstk, List.reverse_cons, List.getLast?_concat]
      have hchain_snoc : List.Chain' (lookEdge g) (s.path ++ [d]) := by
        rw [List.chain'_append]
        refine ⟨hchain, List.chain'_singleton d, ?_⟩
        intro x hx y hy
        rw [hlast] at hx
        cases hx
        simp only [List.head?_cons, Option.mem_def, Option.some.injEq] at hy
        cases hy
        exact hedge_td
      simp only [dfsDeps] at h
      by_cases hvis : d ∈ s.visited
      · rw [if_pos hvis] at h
        by_cases hst : d ∈ s.rstack
        · -- back edge found
          rw [if_pos hst] at h
          cases h
          refine Or.inl ⟨rfl, s.path, d, rfl, ?_, hchain_snoc⟩
          rw [hpath, List.mem_reverse]
          exact hst
        · -- already finished dep: skip
          rw [if_neg hst] at h
          have := ih rest s ord t stk b s' h hstk hnd hsub hpath hchain hord
            (fun x hx => hdeps x (by simp [hx]))
          rcases this with htrue | ⟨hb, h1, h2, h3, ext, hOrd, hall⟩
          · exact Or.inl htrue
          · refine Or.inr ⟨hb, h1, h2, h3, ext, hOrd, ?_⟩
            intro x hx
            rcases List.mem_cons.mp hx with rfl | hx
            · exact List.mem_append_left _ ((hord.mem x).mpr ⟨hvis, hst⟩)
            · exact hall x hx
      · -- unvisited dep: recursive visit
        rw [if_neg hvis] at h
        have hdst : d ∉ s.rstack := fun hc => hvis (hsub d hc)
        have hs1_stk : (dfsPush d s).rstack = d :: (t :: stk) := by
          simp [dfsPush, hstk]
        have hs1_nd : (dfsPush d s).rstack.Nodup := by
          simp only [dfsPush]
          exact List.nodup_cons.mpr ⟨hdst, hnd⟩
        have hs1_sub : ∀ x ∈ (dfsPush d s).rstack, x ∈ (dfsPush d s).visited := by
          simp only [dfsPush]
          intro x hx
          rcases List.mem_cons.mp hx with rfl | hx
          · simp
          · simp [hsub x hx]
        have hs1_path : (dfsPush d s).path = (dfsPush d s).rstack.reverse := by
          simp [dfsPush, hpath]
        have hs1_chain : List.Chain' (lookEdge g) (dfsPush d s).path := hchain_snoc
        have hs1_ord : OrdInv g (dfsPush d s) ord := by
          refine ⟨hord.nodup, ?_, hord.closed⟩
          intro x
          constructor
          · intro hx
            have hx2 := (hord.mem x).mp hx
            have hxd : x ≠ d := fun hc => hvis (hc ▸ hx2.1)
            simp only [dfsPush]
            exact ⟨List.mem_cons_of_mem _ hx2.1,
              fun hc => (List.mem_cons.mp hc).elim (fun h => hxd h) hx2.2⟩
          · intro hx
            simp only [dfsPush] at hx
            obtain ⟨hx1, hx2⟩ := hx
            have hxd : x ≠ d := fun hc => hx2 (hc ▸ List.mem_cons_self _ _)
            exact (hord.mem x).mpr
              ⟨(List.mem_cons.mp hx1).resolve_left hxd, fun hc => hx2 (List.mem_cons_of_mem _ hc)⟩
        cases hnest : dfsDeps g fuel (depsOf g d) (dfsPush d s) with
        | none => rw [hnest] at h; cases h
        | some r =>
          obtain ⟨b2, s2⟩ := r
          rw [hnest] at h
          have hspec := ih (depsOf g d) (dfsPush d s) ord d (t :: stk) b2 s2 hnest
            hs1_stk hs1_nd hs1_sub hs1_path hs1_chain hs1_ord (fun x hx => hx)
          cases b2 with
          | true =>
            cases h
            rcases hspec with ⟨_, post⟩ | ⟨hb, _⟩
            · exact Or.inl ⟨rfl, post⟩
            · cases hb
          | false =>
            rcases hspec with ⟨hb, _⟩ | ⟨_, h1, h2, h3, ext1, hOrd1, hall1⟩
            · cases hb
            -- finish d: pop it and record it at the end of the order
            · have hpop_stk : (dfsPop d s2).rstack = s.rstack := by
                simp only [dfsPop, h1, hs1_stk, hstk]
                exact List.erase_cons_head d _
              have hpop_path : (dfsPop d s2).path = s.path := by
                simp only [dfsPop, h2]
                simp [dfsPush]
              have hd_in_s2 : d ∈ s2.visited := h3 d (by simp [dfsPush])
              have hd_notin : d ∉ ord ++ ext1 := by
                intro hc
                have := (hOrd1.mem d).mp hc
                rw [h1, hs1_stk] at this
                exact this.2 (by simp)
              have hord2 : OrdInv g (dfsPop d s2) (ord ++ ext1 ++ [d]) := by
                refine ⟨?_, ?_, ?_⟩
                · exact List.Nodup.append hOrd1.nodup (List.nodup_singleton d)
                    (fun x hx hxd => hd_notin ((List.mem_singleton.mp hxd) ▸ hx))
                · intro x
                  have hvis_eq : (dfsPop d s2).visited = s2.visited := rfl
                  rw [hvis_eq, hpop_stk]
                  constructor
                  · intro hx
                    rcases List.mem_append.mp hx with hx | hx
                    · have hx2 := (hOrd1.mem x).mp hx
                      rw [h1, hs1_stk] at hx2
                      refine ⟨hx2.1, fun hc => hx2.2 ?_⟩
                      rw [hstk] at hc
                      exact List.mem_cons_of_mem _ hc
                    · cases List.mem_singleton.mp hx
                      exact ⟨hd_in_s2, hdst⟩
                  · rintro ⟨hx1, hx2⟩
                    by_cases hxd : x = d
                    · subst hxd
                      exact List.mem_append_right _ (by simp)
                    · apply List.mem_append_left
                      apply (hOrd1.mem x).mpr
                      rw [h1, hs1_stk]
                      refine ⟨hx1, fun hc => ?_⟩
                      rcases List.mem_cons.mp hc with hh | hh
                      · exact hxd hh
                      · rw [hstk] at hx2
                        exact hx2 hh
                · intro i x hix y hy
                  rcases Nat.lt_trichotomy i (ord ++ ext1).length with hlt | heq | hgt
                  · rw [List.getElem?_append_left hlt] at hix
                    have := hOrd1.closed i x hix y hy
                    rwa [List.take_append_of_le_length (Nat.le_of_lt hlt)]
                  · subst heq
                    have hgl : ((ord ++ ext1) ++ [d])[(ord ++ ext1).length]? = some d :=
                      List.getElem?_concat_length _ _
                    rw [hgl] at hix
                    cases hix
                    rw [List.take_left]
                    exact hall1 y hy
                  · exfalso
                    have hlen : ((ord ++ ext1) ++ [d]).length ≤ i := by
                      have : ((ord ++ ext1) ++ [d]).length = (ord ++ ext1).length + 1 := by
                        simp; omega
                      omega
                    rw [List.getElem?_eq_none hlen] at hix
                    cases hix
              have hpop_nd : (dfsPop d s2).rstack.Nodup := by rw [hpop_stk]; exact hnd
              have hpop_sub : ∀ x ∈ (dfsPop d s2).rstack, x ∈ (dfsPop d s2).visited := by
                rw [hpop_stk]
                intro x hx
                simp only [dfsPop]
                exact h3 x (by simp [dfsPush, hsub x hx])
              have hpop_patheq : (dfsPop d s2).path = (dfsPop d s2).rstack.reverse := by
                rw [hpop_stk, hpop_path, hpath]
              have hpop_chain : List.Chain' (lookEdge g) (dfsPop d s2).path := by
                rw [hpop_path]; exact hchain
              have hrec := ih rest (dfsPop d s2) (ord ++ ext1 ++ [d]) t stk b s' h
                (by rw [hpop_stk, hstk]) hpop_nd hpop_sub hpop_patheq hpop_chain hord2
                (fun x hx => hdeps x (by simp [hx]))
              rcases hrec with htrue | ⟨hb, hr1, hr2, hr3, ext2, hOrd2, hall2⟩
              · exact Or.inl htrue
              · refine Or.inr ⟨hb, by rw [hr1, hpop_stk], by rw [hr2, hpop_path], ?_,
                  ext1 ++ [d] ++ ext2, ?_, ?_⟩
                · intro x hx
                  apply hr3
                  simp only [dfsPop]
                  exact h3 x (by simp [dfsPush, hx])
                · have : ord ++ (ext1 ++ [d] ++ ext2) = (ord ++ ext1 ++ [d]) ++ ext2 := by
                    simp [List.append_assoc]
                  rw [this]
                  exact hOrd2
                · intro x hx
                  have hassoc : ord ++ (ext1 ++ [d] ++ ext2) = (ord ++ ext1 ++ [d]) ++ ext2 := by
                    simp [List.append_assoc]
                  rw [hassoc]
                  rcases List.mem_cons.mp hx with rfl | hx
                  · exact List.mem_append_left _ (List.mem_append_right _ (by simp))
                  · exact hall2 x hx

/-- Popping a node whose deps are all finished extends the finish order. -/
theorem ordInv_pop (g : TaskGraph) (s2 : DfsState) (base : List String) (d : String)
    (ord2 : List String)
    (h1 : s2.rstack = d :: base) (hd_in : d ∈ s2.visited) (hdb : d ∉ base)
    (hOrd : OrdInv g s2 ord2) (hall : ∀ y ∈ depsOf g d, y ∈ ord2) :
    OrdInv g (dfsPop d s2) (ord2 ++ [d]) := by
  have hd_notin : d ∉ ord2 := by
    intro hc
    have h2 := (hOrd.mem d).mp hc
    rw [h1] at h2
    exact h2.2 (by simp)
  refine ⟨?_, ?_, ?_⟩
  · exact List.Nodup.append hOrd.nodup (List.nodup_singleton d)
      (fun x hx hxd => hd_notin ((List.mem_singleton.mp hxd) ▸ hx))
  · intro x
    have hvis_eq : (dfsPop d s2).visited = s2.visited := rfl
    have hstk_eq : (dfsPop d s2).rstack = base := by
      simp only [dfsPop, h1]
      exact List.erase_cons_head d base
    rw [hvis_eq, hstk_eq]
    constructor
    · intro hx
      rcases List.mem_append.mp hx with hx | hx
      · have hx2 := (hOrd.mem x).mp hx
        rw [h1] at hx2
        exact ⟨hx2.1, fun hc => hx2.2 (List.mem_cons_of_mem _ hc)⟩
      · cases List.mem_singleton.mp hx
        exact ⟨hd_in, hdb⟩
    · rintro ⟨hx1, hx2⟩
      by_cases hxd : x = d
      · subst hxd
        exact List.mem_append_right _ (by simp)
      · apply List.mem_append_left
        apply (hOrd.mem x).mpr
        rw [h1]
        exact ⟨hx1, fun hc => (List.mem_cons.mp hc).elim hxd hx2⟩
  · intro i x hix y hy
    rcases Nat.lt_trichotomy i ord2.length with hlt | heq | hgt
    · rw [List.getElem?_append_left hlt] at hix
      have := hOrd.closed i x hix y hy
      rwa [List.take_append_of_le_length (Nat.le_of_lt hlt)]
    · subst heq
      rw [List.getElem?_concat_length] at hix
      cases hix
      rw [List.take_left]
      exact hall y hy
    · exfalso
      have hlen : (ord2 ++ [d]).length ≤ i := by
        have : (ord2 ++ [d]).length = ord2.length + 1 := by simp
        omega
      rw [List.getElem?_eq_none hlen] at hix
      cases hix

/-- Pushing an unvisited node does not disturb the finish-order invariant. -/
theorem ordInv_push (g : TaskGraph) (s : DfsState) (ord : List String) (d : String)
    (hord : OrdInv g s ord) (hvis : d ∉ s.visited) :
    OrdInv g (dfsPush d s) ord := by
  refine ⟨hord.nodup, ?_, hord.closed⟩
  intro x
  constructor
  · intro hx
    have hx2 := (hord.mem x).mp hx
    have hxd : x ≠ d := fun hc => hvis (hc ▸ hx2.1)
    simp only [dfsPush]
    exact ⟨List.mem_cons_of_mem _ hx2.1,
      fun hc => (List.mem_cons.mp hc).elim (fun h => hxd h) hx2.2⟩
  · intro hx
    simp only [dfsPush] at hx
    obtain ⟨hx1, hx2⟩ := hx
    have hxd : x ≠ d := fun hc => hx2 (hc ▸ List.mem_cons_self _ _)
    exact (hord.mem x).mpr
      ⟨(List.mem_cons.mp hx1).resolve_left hxd, fun hc => hx2 (List.mem_cons_of_mem _ hc)⟩

/-- Specification of one top-level `dfs(nodeId)` call from a quiescent
state. -/
theorem dfsVisit_spec (g : TaskGraph) (fuel : Nat) (nodeId : String) (s : DfsState)
    (ord : List String) (b : Bool) (s' : DfsState)
    (h : dfsVisit g fuel nodeId s = some (b, s'))
    (hstk : s.rstack = []) (hpath : s.path = [])
    (hord : OrdInv g s ord) (hvis : nodeId ∉ s.visited) :
    (b = true ∧ ∃ q d, s'.path = q ++ [d] ∧ d ∈ q ∧ List.Chain' (lookEdge g) s'.path)
    ∨ (b = false ∧ s'.rstack = [] ∧ s'.path = [] ∧
        (∀ x ∈ s.visited, x ∈ s'.visited) ∧ nodeId ∈ s'.visited ∧
        ∃ ext, OrdInv g s' (ord ++ ext) ∧ nodeId ∈ ord ++ ext) := by
  unfold dfsVisit at h
  have hs1_stk : (dfsPush nodeId s).rstack = nodeId :: [] := by simp [dfsPush, hstk]
  have hs1_nd : (dfsPush nodeId s).rstack.Nodup := by
    rw [hs1_stk]; exact List.nodup_singleton _
  have hs1_sub : ∀ x ∈ (dfsPush nodeId s).rstack, x ∈ (dfsPush nodeId s).visited := by
    rw [hs1_stk]
    intro x hx
    cases List.mem_singleton.mp hx
    simp [dfsPush]
  have hs1_path : (dfsPush nodeId s).path = (dfsPush nodeId s).rstack.reverse := by
    simp [dfsPush, hstk, hpath]
  have hs1_chain : List.Chain' (lookEdge g) (dfsPush nodeId s).path := by
    have : (dfsPush nodeId s).path = [nodeId] := by simp [dfsPush, hpath]
    rw [this]
    exact List.chain'_singleton _
  have hs1_ord : OrdInv g (dfsPush nodeId s) ord := ordInv_push g s ord nodeId hord hvis
  cases hnest : dfsDeps g fuel (depsOf g nodeId) (dfsPush nodeId s) with
  | none => rw [hnest] at h; cases h
  | some r =>
    obtain ⟨b2, s2⟩ := r
    rw [hnest] at h
    have hspec := dfsDeps_spec g fuel (depsOf g nodeId) (dfsPush nodeId s) ord nodeId []
      b2 s2 hnest hs1_stk hs1_nd hs1_sub hs1_path hs1_chain hs1_ord (fun x hx => hx)
    cases b2 with
    | true =>
      cases h
      rcases hspec with ⟨_, post⟩ | ⟨hb, _⟩
      · exact Or.inl ⟨rfl, post⟩
      · cases hb
    | false =>
      cases h
      rcases hspec with ⟨hb, _⟩ | ⟨_, h1, h2, h3, ext1, hOrd1, hall1⟩
      · cases hb
      · have hnodeid_in : nodeId ∈ s2.visited := h3 nodeId (by simp [dfsPush])
        have hpop := ordInv_pop g s2 [] nodeId (ord ++ ext1)
          (by rw [h1, hs1_stk]) hnodeid_in (by simp) hOrd1 hall1
        refine Or.inr ⟨rfl, ?_, ?_, ?_, hnodeid_in, ext1 ++ [nodeId], ?_, ?_⟩
        · simp only [dfsPop, h1, hs1_stk]
          exact List.erase_cons_head _ _
        · simp only [dfsPop, h2]
          simp [dfsPush, hpath]
        · intro x hx
          exact h3 x (by simp [dfsPush, hx])
        · rw [← List.append_assoc]
          exact hpop
        · rw [← List.append_assoc]
          exact List.mem_append_right _ (by simp)

/-- Specification of the outer loop of `detectCycles`. -/
theorem detectCyclesAux_spec (g : TaskGraph) :
    ∀ (nodes : List NodeSpec) (s : DfsState) (ord : List String) (r : Option (List String)),
      detectCyclesAux g nodes s = some r →
      s.rstack = [] → s.path = [] → OrdInv g s ord →
      ((∃ p, r = some p ∧ ∃ q d, p = q ++ [d] ∧ d ∈ q ∧ List.Chain' (lookEdge g) p)
      ∨ (r = none ∧ ∃ ext, (ord ++ ext).Nodup ∧ OrdClosed g (ord ++ ext) ∧
          ∀ n ∈ nodes, n.id ∈ ord ++ ext)) := by
  intro nodes
  induction nodes with
  | nil =>
    intro s ord r h hstk hpath hord
    cases h
    exact Or.inr ⟨rfl, [], by simpa using hord.nodup, by simpa using hord.closed, by simp⟩
  | cons n rest ih =>
    intro s ord r h hstk hpath hord
    simp only [detectCyclesAux] at h
    by_cases hvis : n.id ∈ s.visited
    · rw [if_pos hvis] at h
      rcases ih s ord r h hstk hpath hord with hleft | ⟨hr, ext, hnd, hcl, hall⟩
      · exact Or.inl hleft
      · refine Or.inr ⟨hr, ext, hnd, hcl, ?_⟩
        intro m hm
        rcases List.mem_cons.mp hm with rfl | hm
        · exact List.mem_append_left _ ((hord.mem m.id).mpr ⟨hvis, by simp [hstk]⟩)
        · exact hall m hm
    · rw [if_neg hvis] at h
      cases hv : dfsVisit g (dfsFuel g) n.id s with
      | none => rw [hv] at h; cases h
      | some res =>
        obtain ⟨b2, s2⟩ := res
        rw [hv] at h
        have hspec := dfsVisit_spec g (dfsFuel g) n.id s ord b2 s2 hv hstk hpath hord hvis
        cases b2 with
        | true =>
          cases h
          rcases hspec with ⟨_, post⟩ | ⟨hb, _⟩
          · exact Or.inl ⟨s2.path, rfl, post⟩
          · cases hb
        | false =>
          rcases hspec with ⟨hb, _⟩ | ⟨_, h1, h2, h3, hnid, ext1, hOrd1, hmem1⟩
          · cases hb
          · rcases ih s2 (ord ++ ext1) r h h1 h2 hOrd1 with hleft | ⟨hr, ext2, hnd, hcl, hall⟩
            · exact Or.inl hleft
            · refine Or.inr ⟨hr, ext1 ++ ext2, ?_, ?_, ?_⟩
              · rwa [← List.append_assoc]
              · rwa [← List.append_assoc]
              · intro m hm
                rcases List.mem_cons.mp hm with rfl | hm
                · rw [← List.append_assoc]
                  exact List.mem_append_left _ hmem1
                · rw [← List.append_assoc]
                  exact hall m hm

/-- With ample fuel the outer loop never runs dry. -/
theorem detectCyclesAux_ne_none (g : TaskGraph) :
    ∀ (nodes : List NodeSpec) (s : DfsState),
      (∀ n ∈ nodes, n ∈ g.nodes) → detectCyclesAux g nodes s ≠ none := by
  intro nodes
  induction nodes with
  | nil => intro s _; simp [detectCyclesAux]
  | cons n rest ih =>
    intro s hmem
    simp only [detectCyclesAux]
    by_cases hvis : n.id ∈ s.visited
    · rw [if_pos hvis]
      exact ih s (fun m hm => hmem m (by simp [hm]))
    · rw [if_neg hvis]
      have hfuel : dfsDeps g (dfsFuel g) (depsOf g n.id) (dfsPush n.id s) ≠ none := by
        apply dfsDeps_fuel g _ _ _ (depsOf_sub_univ g n.id)
        have hu : n.id ∈ idUniverse g := nodeId_mem_univ g n (hmem n (by simp))
        have hpush := dfsPot_push g n.id s.visited hu hvis
        have hanti : dfsPot g s.visited ≤ dfsPot g [] := by
          apply dfsPot_anti
          intro x hx
          simp at hx
        simp only [dfsPush]
        unfold dfsFuel
        omega
      have hv : dfsVisit g (dfsFuel g) n.id s ≠ none := by
        unfold dfsVisit
        cases hnest : dfsDeps g (dfsFuel g) (depsOf g n.id) (dfsPush n.id s) with
        | none => exact absurd hnest hfuel
        | some r =>
          obtain ⟨b2, s2⟩ := r
          cases b2 <;> simp
      cases hv2 : dfsVisit g (dfsFuel g) n.id s with
      | none => exact absurd hv2 hv
      | some res =>
        obtain ⟨b2, s2⟩ := res
        cases b2 with
        | true => simp
        | false => exact ih s2 (fun m hm => hmem m (by simp [hm]))

/-- When `detectCycles` reports no cycle there is a finish order of all
node ids in which every dependency points strictly backwards. -/
theorem detectCycles_none_ord (g : TaskGraph) (h : detectCycles g = none) :
    ∃ ord : List String, ord.Nodup ∧ OrdClosed g ord ∧ ∀ n ∈ g.nodes, n.id ∈ ord := by
  unfold detectCycles at h
  cases haux : detectCyclesAux g g.nodes ⟨[], [], []⟩ with
  | none => exact absurd haux (detectCyclesAux_ne_none g g.nodes _ (fun n hn => hn))
  | some r =>
    rw [haux] at h
    have hinit : OrdInv g ⟨[], [], []⟩ [] := by
      refine ⟨List.nodup_nil, ?_, ?_⟩
      · intro x; simp
      · intro i x hix; simp at hix
    rcases detectCyclesAux_spec g g.nodes _ [] r haux rfl rfl hinit with
      ⟨p, hp, _⟩ | ⟨hr, ext, hnd, hcl, hall⟩
    · rw [hp] at h; cases h
    · exact ⟨[] ++ ext, hnd, hcl, hall⟩

/-- When `detectCycles` reports a path, that path is a dependency chain
ending in a repetition of one of its earlier nodes. -/
theorem detectCycles_some_spec (g : TaskGraph) (p : List String)
    (h : detectCycles g = some p) :
    ∃ q d, p = q ++ [d] ∧ d ∈ q ∧ List.Chain' (lookEdge g) p := by
  unfold detectCycles at h
  cases haux : detectCyclesAux g g.nodes ⟨[], [], []⟩ with
  | none => rw [haux] at h; cases h
  | some r =>
    rw [haux] at h
    have hinit : OrdInv g ⟨[], [], []⟩ [] := by
      refine ⟨List.nodup_nil, ?_, ?_⟩
      · intro x; simp
      · intro i x hix; simp at hix
    rcases detectCyclesAux_spec g g.nodes _ [] r haux rfl rfl hinit with
      ⟨p2, hp2, post⟩ | ⟨hr, _⟩
    · rw [hp2] at h
      cases h
      exact post
    · rw [hr] at h; cases h

/-! ### From a valid graph to scheduling progress -/

/-- Unpack what `validate g = (true, _)` guarantees. -/
theorem validate_true_parts (g : TaskGraph) (h : (validate g).1 = true) :
    (g.nodes.map (fun n => n.id)).Nodup ∧
    (∀ node ∈ g.nodes, ∀ dep ∈ node.deps, dep ∈ g.nodes.map (fun n => n.id)) ∧
    detectCycles g = none := by
  unfold validate at h
  simp only at h
  rw [List.isEmpty_iff] at h
  obtain ⟨hrest, hcycle⟩ := List.append_eq_nil.mp h
  obtain ⟨hdup, hdangling⟩ := List.append_eq_nil.mp hrest
  refine ⟨?_, ?_, ?_⟩
  · by_cases hc : (g.nodes.map (fun n => n.id)).dedup.length ≠ g.nodes.length
    · rw [if_pos hc] at hdup; cases hdup
    · push_neg at hc
      have hlen : (g.nodes.map (fun n => n.id)).dedup.length =
          (g.nodes.map (fun n => n.id)).length := by
        rw [hc, List.length_map]
      have heq := (List.dedup_sublist (g.nodes.map (fun n => n.id))).eq_of_length hlen
      rw [← heq]
      exact List.nodup_dedup _
  · intro node hnode dep hdep
    by_contra hmem
    have hnil : node.deps.filterMap (fun dep =>
        if dep ∈ g.nodes.map (fun n => n.id) then none
        else some ("Node " ++ node.id ++ " depends on non-existent node " ++ dep)) = [] := by
      by_contra hne
      obtain ⟨e, he⟩ := List.exists_mem_of_ne_nil _ hne
      have : e ∈ g.nodes.flatMap (fun node =>
          node.deps.filterMap (fun dep =>
            if dep ∈ g.nodes.map (fun n => n.id) then none
            else some ("Node " ++ node.id ++ " depends on non-existent node " ++ dep))) :=
        List.mem_flatMap.mpr ⟨node, hnode, he⟩
      rw [hdangling] at this
      simp at this
    have := hnil
    rw [List.filterMap_eq_nil_iff] at this
    have h2 := this dep hdep
    rw [if_neg hmem] at h2
    cases h2
  · cases hdc : detectCycles g with
    | none => rfl
    | some cyc => rw [hdc] at hcycle; cases hcycle

theorem indexOf_lt_of_mem_take {α : Type} [DecidableEq α] :
    ∀ (l : List α) (i : Nat) (a : α), a ∈ l.take i → l.indexOf a < i ∧ a ∈ l := by
  intro l
  induction l with
  | nil => intro i a h; simp at h
  | cons b l ih =>
    intro i a h
    cases i with
    | zero => simp at h
    | succ k =>
      rw [List.take_succ_cons] at h
      by_cases hab : a = b
      · subst hab
        constructor
        · rw [List.indexOf_cons_self]; omega
        · simp
      · have h2 : a ∈ l.take k := by
          rcases List.mem_cons.mp h with h | h
          · exact absurd h hab
          · exact h
        obtain ⟨h3, h4⟩ := ih k a h2
        constructor
        · rw [List.indexOf_cons_ne l (fun hc => hab hc.symm)]; omega
        · exact List.mem_cons_of_mem _ h4

theorem getElem?_indexOf_self {α : Type} [DecidableEq α] (l : List α) (a : α) (h : a ∈ l) :
    l[l.indexOf a]? = some a := by
  rw [List.getElem?_eq_getElem (List.indexOf_lt_length.mpr h)]
  simp [List.getElem_indexOf]

/-- When validation succeeds, any incomplete node set still has a ready
node: the scheduler can always make progress. -/
theorem ready_progress (g : TaskGraph) (hvalid : (validate g).1 = true)
    (completed : List String) (n0 : NodeSpec) (hn0 : n0 ∈ g.nodes)
    (hnc0 : n0.id ∉ completed) : getReadyNodes g completed ≠ [] := by
  obtain ⟨hnodup, hdangling, hnone⟩ := validate_true_parts g hvalid
  obtain ⟨ord, hordnd, hcl, hall⟩ := detectCycles_none_ord g hnone
  have hdeps_eq : ∀ n ∈ g.nodes, depsOf g n.id = n.deps := by
    intro n hn
    unfold depsOf
    rw [lookupNode_of_nodup g hnodup n hn]
  have key : ∀ (i : Nat) (n : NodeSpec), n ∈ g.nodes → n.id ∉ completed →
      ord[i]? = some n.id → getReadyNodes g completed ≠ [] := by
    intro i
    induction i using Nat.strong_induction_on with
    | _ i ih =>
      intro n hn hnc hidx
      by_cases hready : ∀ dep ∈ n.deps, dep ∈ completed
      · apply List.ne_nil_of_mem (a := n)
        unfold getReadyNodes
        rw [List.mem_filter]
        refine ⟨hn, ?_⟩
        rw [if_neg hnc]
        rw [List.all_eq_true]
        intro dep hdep
        simpa using hready dep hdep
      · push_neg at hready
        obtain ⟨dep, hdep, hdepnc⟩ := hready
        have hdep_take : dep ∈ ord.take i := by
          have h2 := hcl i n.id hidx dep
          apply h2
          rw [hdeps_eq n hn]
          exact hdep
        obtain ⟨hlt, hdmem⟩ := indexOf_lt_of_mem_take ord i dep hdep_take
        have hdep_node : ∃ m ∈ g.nodes, m.id = dep := by
          have := hdangling n hn dep hdep
          rw [List.mem_map] at this
          obtain ⟨m, hm, hmid⟩ := this
          exact ⟨m, hm, hmid⟩
        obtain ⟨m, hm, hmid⟩ := hdep_node
        exact ih (ord.indexOf dep) hlt m hm (hmid ▸ hdepnc)
          (by rw [hmid]; exact getElem?_indexOf_self ord dep hdmem)
  have hmem0 : n0.id ∈ ord := hall n0 hn0
  exact key (ord.indexOf n0.id) n0 hn0 hnc0 (getElem?_indexOf_self ord n0.id hmem0)

/-! ### The ready-set iteration visits every node exactly once -/

theorem getReadyNodes_eq_filter (g : TaskGraph) (completed : List String) :
    getReadyNodes g completed =
      (g.nodes.filter (fun n => decide (n.id ∉ completed))).filter
        (fun n => n.deps.all (fun dep => decide (dep ∈ completed))) := by
  rw [List.filter_filter]
  unfold getReadyNodes
  apply List.filter_congr
  intro n _
  by_cases hc : n.id ∈ completed
  · simp [hc]
  · simp [hc]

/-- One scheduling round splits the uncompleted nodes into the ready batch
and the still-blocked remainder. -/
theorem ready_split (g : TaskGraph) (hvalid : (validate g).1 = true) (completed : List String) :
    List.Perm (getReadyNodes g completed ++
        g.nodes.filter (fun n =>
          decide (n.id ∉ completed ++ (getReadyNodes g completed).map (fun n => n.id))))
      (g.nodes.filter (fun n => decide (n.id ∉ completed))) := by
  have hnodup := (validate_true_parts g hvalid).1
  set U := g.nodes.filter (fun n => decide (n.id ∉ completed)) with hUdef
  set ready := getReadyNodes g completed with hreadydef
  set completed2 := completed ++ ready.map (fun n => n.id) with hc2def
  have hreadyU : ready = U.filter (fun n => n.deps.all (fun dep => decide (dep ∈ completed))) := by
    rw [hreadydef, getReadyNodes_eq_filter, hUdef]
  have hmem_ready_iff : ∀ n ∈ U, (n.id ∈ ready.map (fun n => n.id) ↔
      n.deps.all (fun dep => decide (dep ∈ completed)) = true) := by
    intro n hnU
    constructor
    · intro hmem
      rw [List.mem_map] at hmem
      obtain ⟨m, hm, hmid⟩ := hmem
      have hmU : m ∈ U := by rw [hreadyU] at hm; exact (List.mem_filter.mp hm).1
      have hmg : m ∈ g.nodes := (List.mem_filter.mp (hUdef ▸ hmU)).1
      have hng : n ∈ g.nodes := (List.mem_filter.mp (hUdef ▸ hnU)).1
      have : m = n := List.inj_on_of_nodup_map hnodup hmg hng hmid
      subst this
      rw [hreadyU] at hm
      exact (List.mem_filter.mp hm).2
    · intro hdeps
      apply List.mem_map_of_mem
      rw [hreadyU]
      exact List.mem_filter.mpr ⟨hnU, hdeps⟩
  have hU2 : g.nodes.filter (fun n => decide (n.id ∉ completed2)) =
      U.filter (fun n => !(n.deps.all (fun dep => decide (dep ∈ completed)))) := by
    rw [hUdef, List.filter_filter]
    apply List.filter_congr
    intro n hng
    by_cases hc : n.id ∈ completed
    · have : n.id ∈ completed2 := by rw [hc2def]; exact List.mem_append_left _ hc
      simp [this, hc]
    · by_cases hr : n.id ∈ ready.map (fun n => n.id)
      · have hnU : n ∈ U := by
          rw [hUdef]
          exact List.mem_filter.mpr ⟨hng, by simpa using hc⟩
        have hdeps := (hmem_ready_iff n hnU).mp hr
        have : n.id ∈ completed2 := by rw [hc2def]; exact List.mem_append_right _ hr
        simp [this, hdeps]
      · have hnc2 : n.id ∉ completed2 := by
          rw [hc2def]
          intro hmem
          rcases List.mem_append.mp hmem with hmem | hmem
          · exact hc hmem
          · exact hr hmem
        have hnU : n ∈ U := by
          rw [hUdef]
          exact List.mem_filter.mpr ⟨hng, by simpa using hc⟩
        have hdeps : ¬ (n.deps.all (fun dep => decide (dep ∈ completed)) = true) := by
          intro hd
          exact hr ((hmem_ready_iff n hnU).mpr hd)
        simp [hnc2, hdeps]
        exact hc
  rw [hreadyU, hU2]
  exact List.filter_append_perm _ U

theorem readyIter_perm (g : TaskGraph) (hvalid : (validate g).1 = true) :
    ∀ (fuel : Nat) (completed : List String),
      (g.nodes.filter (fun n => decide (n.id ∉ completed))).length ≤ fuel →
      List.Perm (readyIter g fuel completed).flatten
        (g.nodes.filter (fun n => decide (n.id ∉ completed))) := by
  intro fuel
  induction fuel with
  | zero =>
    intro completed hlen
    have hU : g.nodes.filter (fun n => decide (n.id ∉ completed)) = [] :=
      List.eq_nil_of_length_eq_zero (Nat.le_zero.mp hlen)
    rw [hU]
    simp [readyIter]
  | succ fuel ih =>
    intro completed hlen
    set U := g.nodes.filter (fun n => decide (n.id ∉ completed)) with hUdef
    by_cases hU : U = []
    · have hready : getReadyNodes g completed = [] := by
        rw [getReadyNodes_eq_filter, ← hUdef, hU, List.filter_nil]
      simp [readyIter, hready, hU]
    · obtain ⟨n0, hn0⟩ := List.exists_mem_of_ne_nil _ hU
      have hn0g : n0 ∈ g.nodes ∧ n0.id ∉ completed := by
        have := List.mem_filter.mp (hUdef ▸ hn0)
        exact ⟨this.1, by simpa using this.2⟩
      have hready_ne : getReadyNodes g completed ≠ [] :=
        ready_progress g hvalid completed n0 hn0g.1 hn0g.2
      simp only [readyIter]
      rw [if_neg (by simpa [List.isEmpty_iff] using hready_ne)]
      set ready := getReadyNodes g completed with hreadydef
      set completed2 := completed ++ ready.map (fun n => n.id) with hc2def
      have hsplit : List.Perm (ready ++ g.nodes.filter (fun n => decide (n.id ∉ completed2)))
          U := ready_split g hvalid completed
      have hlen2 : (g.nodes.filter (fun n => decide (n.id ∉ completed2))).length ≤ fuel := by
        have h1 := hsplit.length_eq
        rw [List.length_append] at h1
        have hready_len : 1 ≤ ready.length := by
          cases hready2 : ready with
          | nil => exact absurd hready2 (hreadydef ▸ hready_ne)
          | cons a l => simp
        omega
      have hrec := ih completed2 hlen2
      have hflat : (ready :: readyIter g fuel completed2).flatten =
          ready ++ (readyIter g fuel completed2).flatten := by simp
      rw [hflat]
      exact (hrec.append_left ready).trans hsplit

theorem readyIter_fuel_irrel (g : TaskGraph) (hvalid : (validate g).1 = true) :
    ∀ (f1 f2 : Nat) (completed : List String),
      (g.nodes.filter (fun n => decide (n.id ∉ completed))).length ≤ f1 →
      (g.nodes.filter (fun n => decide (n.id ∉ completed))).length ≤ f2 →
      readyIter g f1 completed = readyIter g f2 completed := by
  intro f1
  induction f1 with
  | zero =>
    intro f2 completed h1 h2
    have hU : g.nodes.filter (fun n => decide (n.id ∉ completed)) = [] :=
      List.eq_nil_of_length_eq_zero (Nat.le_zero.mp h1)
    have hready : getReadyNodes g completed = [] := by
      rw [getReadyNodes_eq_filter, hU, List.filter_nil]
    cases f2 with
    | zero => rfl
    | succ f2 => simp [readyIter, hready]
  | succ f1 ih =>
    intro f2 completed h1 h2
    set U := g.nodes.filter (fun n => decide (n.id ∉ completed)) with hUdef
    by_cases hU : U = []
    · have hready : getReadyNodes g completed = [] := by
        rw [getReadyNodes_eq_filter, ← hUdef, hU, List.filter_nil]
      cases f2 with
      | zero => simp [readyIter, hready]
      | succ f2 => simp [readyIter, hready]
    · obtain ⟨n0, hn0⟩ := List.exists_mem_of_ne_nil _ hU
      have hn0g : n0 ∈ g.nodes ∧ n0.id ∉ completed := by
        have := List.mem_filter.mp (hUdef ▸ hn0)
        exact ⟨this.1, by simpa using this.2⟩
      have hready_ne : getReadyNodes g completed ≠ [] :=
        ready_progress g hvalid completed n0 hn0g.1 hn0g.2
      have hUlen : 1 ≤ U.length := by
        cases hc : U with
        | nil => exact absurd hc hU
        | cons a l => simp
      cases f2 with
      | zero => omega
      | succ f2 =>
        simp only [readyIter]
        rw [if_neg (by simpa [List.isEmpty_iff] using hready_ne),
          if_neg (by simpa [List.isEmpty_iff] using hready_ne)]
        congr 1
        set ready := getReadyNodes g completed with hreadydef
        set completed2 := completed ++ ready.map (fun n => n.id) with hc2def
        have hsplit : List.Perm (ready ++ g.nodes.filter (fun n => decide (n.id ∉ completed2)))
            U := ready_split g hvalid completed
        have hlen2 : (g.nodes.filter (fun n => decide (n.id ∉ completed2))).length + 1 ≤
            U.length := by
          have hl := hsplit.length_eq
          rw [List.length_append] at hl
          have hready_len : 1 ≤ ready.length := by
            cases hready2 : ready with
            | nil => exact absurd hready2 (hreadydef ▸ hready_ne)
            | cons a l => simp
          omega
        exact ih f2 completed2 (by omega) (by omega)

/-! ### Claim C1 -/

/-- C1: For every TaskGraph that passes `validate`, the iteration that
starts from an empty completed set and repeatedly calls `getReadyNodes`,
marking every returned node completed, terminates (the batch list is
already stable at fuel `g.nodes.length`, so more iterations change
nothing) and returns every node of the graph exactly once: the
concatenation of the returned batches is a permutation of `g.nodes`. -/
theorem claim_C1 (g : TaskGraph) (m : Nat) (hvalid : (validate g).1 = true) :
    List.Perm (readyIter g g.nodes.length []).flatten g.nodes ∧
    readyIter g (g.nodes.length + m) [] = readyIter g g.nodes.length [] := by
  have hfil : g.nodes.filter (fun n => decide (n.id ∉ ([] : List String))) = g.nodes :=
    List.filter_eq_self.mpr (fun n _ => by simp)
  have hlenle : (g.nodes.filter (fun n => decide (n.id ∉ ([] : List String)))).length ≤
      g.nodes.length := by
    rw [hfil]
  constructor
  · have h := readyIter_perm g hvalid g.nodes.length [] hlenle
    rw [hfil] at h
    exact h
  · exact readyIter_fuel_irrel g hvalid (g.nodes.length + m) g.nodes.length []
      (by rw [hfil] at hlenle ⊢; omega) hlenle

/-- A small diamond-shaped graph used as a concrete witness. -/
def wNode (id : String) (deps : List String) : NodeSpec :=
  ⟨id, "execute", "objective", deps, ⟨"ns"⟩, none⟩

def gDiamond : TaskGraph :=
  ⟨"run_diamond1", [wNode "d" ["b", "c"], wNode "b" ["a"], wNode "c" ["a"], wNode "a" []], ⟨4⟩⟩

theorem claim_C1_witness :
    (validate gDiamond).1 = true ∧
    (List.Perm (readyIter gDiamond gDiamond.nodes.length []).flatten gDiamond.nodes ∧
      readyIter gDiamond (gDiamond.nodes.length + 2) [] =
        readyIter gDiamond gDiamond.nodes.length []) :=
  ⟨by decide, claim_C1 gDiamond 2 (by decide)⟩

/-! ### Claim C4 -/

/-- Along a dependency chain the finish-order index strictly decreases. -/
theorem chain_indexOf_lt (g : TaskGraph) (ord : List String)
    (hcl : OrdClosed g ord) (hsrc : ∀ u v, lookEdge g u v → u ∈ ord) :
    ∀ (c : List String) (x y : String), List.Chain' (lookEdge g) c →
      c.head? = some x → c.getLast? = some y → 2 ≤ c.length →
      y ∈ ord ∧ x ∈ ord ∧ ord.indexOf y < ord.indexOf x := by
  intro c
  induction c with
  | nil => intro x y _ hx _ _; cases hx
  | cons a c ih =>
    intro x y hchain hx hy hlen
    cases c with
    | nil => simp at hlen
    | cons b c2 =>
      simp only [List.head?_cons, Option.some.injEq] at hx
      subst hx
      obtain ⟨hedge, hchain2⟩ := List.chain'_cons.mp hchain
      have ha_ord : a ∈ ord := hsrc a b hedge
      have hstep : b ∈ ord ∧ ord.indexOf b < ord.indexOf a := by
        have hidx := getElem?_indexOf_self ord a ha_ord
        have hbdep : b ∈ depsOf g a := hedge
        have htake := hcl (ord.indexOf a) a hidx b hbdep
        obtain ⟨hlt, hmem⟩ := indexOf_lt_of_mem_take ord (ord.indexOf a) b htake
        exact ⟨hmem, hlt⟩
      cases c2 with
      | nil =>
        have hy2 : y = b := by
          simp only [List.getLast?_cons_cons, List.getLast?_singleton,
            Option.some.injEq] at hy
          exact hy.symm
        subst hy2
        exact ⟨hstep.1, ha_ord, hstep.2⟩
      | cons e c3 =>
        have hy2 : (b :: e :: c3).getLast? = some y := by
          rw [List.getLast?_cons_cons] at hy
          exact hy
        have hrec := ih b y hchain2 rfl hy2 (by simp)
        exact ⟨hrec.1, ha_ord, Nat.lt_trans hrec.2.2 hstep.2⟩

/-- C4 (corrected): every graph with a dependency cycle fails `validate`;
and whenever `detectCycles` reports a path, that path is a (possibly
empty) lead-in prefix followed by an actual cycle — the suffix starting at
the first repeated node.  The original claim, that the whole reported path
is a rotation of a cycle, is refuted by `claim_C4_counterexample`. -/
theorem claim_C4 (g : TaskGraph) (c p : List String) (hc : IsCycle g c) :
    (validate g).1 = false ∧
    (detectCycles g = some p → ∃ pre cyc, p = pre ++ cyc ∧ IsCycle g cyc) := by
  constructor
  · cases hval : (validate g).1 with
    | false => rfl
    | true =>
      exfalso
      obtain ⟨hnodup, _, hnone⟩ := validate_true_parts g hval
      obtain ⟨ord, hordnd, hcl, hall⟩ := detectCycles_none_ord g hnone
      obtain ⟨hlen, hheadlast, hchainB⟩ := hc
      have hchain : List.Chain' (lookEdge g) c :=
        ((chainB_iff _ c).mp hchainB).imp (fun a b h => edgeB_lookEdge g hnodup a b h)
      have hsrc : ∀ u v, lookEdge g u v → u ∈ ord := by
        intro u v huv
        unfold lookEdge depsOf at huv
        cases hl : lookupNode g u with
        | none => rw [hl] at huv; simp at huv
        | some n =>
          rcases lookupNode_mem g u n hl with ⟨hmem, hid⟩
          exact hid ▸ hall n hmem
      obtain ⟨a, c2, hco⟩ : ∃ a c2, c = a :: c2 := by
        cases c with
        | nil => simp at hlen
        | cons a c2 => exact ⟨a, c2, rfl⟩
      have hx : c.head? = some a := by rw [hco]; rfl
      have hy : ∃ y, c.getLast? = some y := by
        rw [hco]
        exact ⟨(a :: c2).getLast (by simp), List.getLast?_eq_getLast _ _⟩
      obtain ⟨y, hy⟩ := hy
      have hxy : a = y := by
        have h2 := hheadlast
        rw [hx, hy] at h2
        cases h2
        rfl
      have hres := chain_indexOf_lt g ord hcl hsrc c a y hchain hx hy hlen
      rw [hxy] at hres
      exact Nat.lt_irrefl _ hres.2.2
  · intro hp
    obtain ⟨q, d, hpeq, hdq, hchain⟩ := detectCycles_some_spec g p hp
    obtain ⟨q1, q2, hq⟩ := List.append_of_mem hdq
    refine ⟨q1, d :: q2 ++ [d], ?_, ?_, ?_, ?_⟩
    · rw [hpeq, hq]
      simp
    · have hl2 : (d :: q2 ++ [d]).length = q2.length + 2 := by simp
      omega
    · have hsh : d :: q2 ++ [d] = (d :: q2) ++ [d] := by simp
      rw [hsh, List.getLast?_concat]
      rfl
    · have hshape : p = q1 ++ ((d :: q2) ++ [d]) := by
        rw [hpeq, hq]
        simp
      rw [hshape] at hchain
      have hsub := (List.chain'_append.mp hchain).2.1
      have hch : List.Chain' (lookEdge g) (d :: q2 ++ [d]) := by
        simpa using hsub
      exact (chainB_iff _ _).mpr (hch.imp (fun a b h => lookEdge_edgeB g a b h))

/-- The graph a→b→c→b: the DFS enters the cycle b→c→b through the lead-in
node a, so the reported path starts outside the cycle. -/
def gCycleCex : TaskGraph :=
  ⟨"run_cycle_cex", [wNode "a" ["b"], wNode "b" ["c"], wNode "c" ["b"]], ⟨4⟩⟩

/-- C4 counterexample: `gCycleCex` has the cycle b→c→b, and `validate`
reports the path a→b→c→b, which is not a rotation of any actual cycle: it
does not return to its starting node (it starts at `a` and ends at `b`,
with `a` lying outside the cycle), refuting the claim as stated. -/
theorem claim_C4_counterexample :
    IsCycle gCycleCex ["b", "c", "b"] ∧
    detectCycles gCycleCex = some ["a", "b", "c", "b"] ∧
    ¬ IsCycle gCycleCex ["a", "b", "c", "b"] := by
  refine ⟨by decide, by decide, by decide⟩

theorem claim_C4_witness :
    IsCycle gCycleCex ["b", "c", "b"] ∧
    ((validate gCycleCex).1 = false ∧
      (detectCycles gCycleCex = some ["a", "b", "c", "b"] →
        ∃ pre cyc, ["a", "b", "c", "b"] = pre ++ cyc ∧ IsCycle gCycleCex cyc)) :=
  ⟨by decide, claim_C4 gCycleCex ["b", "c", "b"] ["a", "b", "c", "b"] (by decide)⟩

/-! ## GraphExecutor model (src/packages/core/dag/GraphExecutor.ts)

The node executor is modelled as a function from the attempt number to the
`NodeExecutionResult` it returns (the sources' executor never throws in
the scenarios verified here; a thrown error would surface exactly like a
returned non-completed result, through the same catch in `executeNode`).
Wall-clock durations are modelled as 0.  The retry sleeps are recorded as
a list of slept millisecond amounts (rationals, since JS numbers are
floats). -/

inductive NodeStatus
  | pending
  | running
  | completed
  | failed
  | skipped
deriving DecidableEq, Repr

structure NodeExecutionResult where
  nodeId : String
  status : NodeStatus
  outputHandles : List String
  error : Option String
  durationMs : Nat
deriving DecidableEq, Repr

structure RunSpec where
  runId : String
  objective : String
deriving DecidableEq, Repr

structure RunResult where
  runId : String
  status : String
  outputs : List (String × String)
  error : Option String
deriving DecidableEq, Repr

/-- The fallback policy used when a node has no retryPolicy. -/
def defaultRetryPolicy : RetryPolicy := ⟨true, 3, 5, 2⟩

/-- The retry loop of `executeWithRetry`, structural on the remaining
attempt budget.  Returns (result-or-thrown-error, attempts made, sleeps
performed in milliseconds). -/
def retryGo (exec : Nat → NodeExecutionResult) (rate : ℚ) :
    Nat → Nat → ℚ → List ℚ → Option String →
    Except String NodeExecutionResult × Nat × List ℚ
  | 0, attempt, _, sleeps, lastErr =>
    (Except.error (lastErr.getD "Max retries exceeded"), attempt, sleeps)
  | remaining + 1, attempt, delay, sleeps, _ =>
    let attempt2 := attempt + 1
    let result := exec attempt2
    if result.status = NodeStatus.completed then
      (Except.ok result, attempt2, sleeps)
    else
      let lastErr2 := some (jsOrStr result.error "Node did not complete successfully")
      if 0 < remaining then
        retryGo exec rate remaining attempt2 (delay * jsOrRat rate 2) (sleeps ++ [delay]) lastErr2
      else
        retryGo exec rate remaining attempt2 delay sleeps lastErr2

/-- `GraphExecutor.executeWithRetry`. -/
def executeWithRetry (exec : Nat → NodeExecutionResult) (retryPolicy : Option RetryPolicy) :
    Except String NodeExecutionResult × Nat × List ℚ :=
  let policy := retryPolicy.getD defaultRetryPolicy
  if policy.retriesAllowed = false then
    (Except.ok (exec 1), 1, [])
  else
    let maxA := jsOrNat policy.maxAttempts 3
    retryGo exec policy.backoffRate maxA 0 (jsOrRat policy.intervalSeconds 5 * 1000) [] none

/-- `GraphExecutor.executeNode`: the catch converts a thrown retry-exhausted
error into a plain failed result, so nothing escapes the batch join. -/
def executeNode (exec : Nat → NodeExecutionResult) (node : NodeSpec) : NodeExecutionResult :=
  match (executeWithRetry exec node.retryPolicy).1 with
  | Except.ok r => r
  | Except.error msg => ⟨node.id, NodeStatus.failed, [], some msg, 0⟩

/-- `GraphExecutor.executeBatch`: Promise.allSettled over the batch; every
promise fulfills because `executeNode` catches. -/
def executeBatch (outcome : String → NodeExecutionResult) (nodes : List NodeSpec) :
    List NodeExecutionResult :=
  nodes.map (fun node => executeNode (fun _ => outcome node.id) node)

/-- JS `Map.set`: overwrite in place or append. -/
def mapSet (m : List (String × NodeExecutionResult)) (k : String) (v : NodeExecutionResult) :
    List (String × NodeExecutionResult) :=
  match m.findIdx? (fun p => p.1 = k) with
  | some i => m.set i (k, v)
  | none => m ++ [(k, v)]

/-- JS `Set.add`. -/
def addSet (s : List String) (x : String) : List String :=
  if x ∈ s then s else s ++ [x]

structure ExecState where
  completedNodes : List (String × NodeExecutionResult)
  failedNodes : List String
  batches : List (List String)
deriving DecidableEq, Repr

/-- Slice the sorted ready list into consecutive chunks of size ≤ k
(the `for (let i = 0; i < readySorted.length; i += maxPar)` loop). -/
def chunksOf (k : Nat) : Nat → List NodeSpec → List (List NodeSpec)
  | 0, _ => []
  | _, [] => []
  | fuel + 1, l => l.take k :: chunksOf k fuel (l.drop k)

/-- Fold batch results into the completed map and failed set. -/
def processResults (results : List NodeExecutionResult) (st : ExecState) : ExecState :=
  results.foldl (fun st r =>
    if r.status = NodeStatus.completed then
      { st with completedNodes := mapSet st.completedNodes r.nodeId r }
    else if r.status = NodeStatus.failed then
      { st with failedNodes := addSet st.failedNodes r.nodeId }
    else st) st

/-- The inner batch loop: record and run each chunk; a failure halts the
admission of further chunks. -/
def runBatches (outcome : String → NodeExecutionResult) :
    List (List NodeSpec) → ExecState → ExecState
  | [], st => st
  | batch :: rest, st =>
    let st2 : ExecState := { st with batches := st.batches ++ [batch.map (fun n => n.id)] }
    let st3 := processResults (executeBatch outcome batch) st2
    if 0 < st3.failedNodes.length then st3
    else runBatches outcome rest st3

/-- Code-point lexicographic comparison of char lists (the order
`localeCompare` induces on the id charset [a-zA-Z0-9._-]). -/
def charListLe : List Char → List Char → Bool
  | [], _ => true
  | _ :: _, [] => false
  | a :: as, b :: bs =>
    if a.toNat < b.toNat then true
    else if b.toNat < a.toNat then false
    else charListLe as bs

/-- Code-point lexicographic order on strings. -/
def strLeB (a b : String) : Bool := charListLe a.data b.data

instance : DecidableRel (fun a b : NodeSpec => strLeB a.id b.id = true) :=
  fun a b => inferInstanceAs (Decidable (strLeB a.id b.id = true))

/-- The sorted ready list.  `localeCompare` on the id charset
[a-zA-Z0-9._-] used by validated ids is modelled as code-point
lexicographic order; any stable sort yields the same result, so a stable
insertion sort stands in for the JS engine sort. -/
def sortReady (ready : List NodeSpec) : List NodeSpec :=
  List.insertionSort (fun a b => strLeB a.id b.id = true) ready

/-- The outer while loop of `execute`.  `none` means fuel exhaustion,
which adequate fuel rules out. -/
def execLoop (outcome : String → NodeExecutionResult) (g : TaskGraph) (maxPar : Nat) :
    Nat → ExecState → Option (Except String ExecState)
  | 0, _ => none
  | fuel + 1, st =>
    if st.completedNodes.length + st.failedNodes.length < g.nodes.length then
      let completedIds := st.completedNodes.map (fun p => p.1)
      let ready := (getReadyNodes g completedIds).filter (fun n => n.id ∉ st.failedNodes)
      if ready.isEmpty then
        if 0 < st.failedNodes.length then some (Except.ok st)
        else some (Except.error "Deadlock: no ready nodes but graph incomplete")
      else
        let readySorted := sortReady ready
        let st2 := runBatches outcome (chunksOf maxPar readySorted.length readySorted) st
        if 0 < st2.failedNodes.length then some (Except.ok st2)
        else execLoop outcome g maxPar fuel st2
    else some (Except.ok st)

/-- `GraphExecutor.execute`.  `cfgMaxParallelism` is the raw constructor
argument (normalised by `|| 4` as in the constructor); the result carries
the RunResult and the sequence of batches that were started. -/
def execute (cfgMaxParallelism : Nat) (outcome : String → NodeExecutionResult)
    (run : RunSpec) (g : TaskGraph) :
    Option (Except String (RunResult × List (List String))) :=
  if (validate g).1 = false then
    some (Except.ok ({ runId := run.runId, status := "failed", outputs := [],
                       error := some ("Invalid graph: " ++
                         String.intercalate ", " (validate g).2) }, []))
  else
    match execLoop outcome g (jsOrNat g.global.maxParallelism (jsOrNat cfgMaxParallelism 4))
        (g.nodes.length + 1) ⟨[], [], []⟩ with
    | none => none
    | some (Except.error e) => some (Except.error e)
    | some (Except.ok st) =>
      some (Except.ok ({ runId := run.runId,
                         status := if 0 < st.failedNodes.length then "failed" else "complete",
                         outputs := st.completedNodes.flatMap (fun p =>
                           p.2.outputHandles.map (fun h => (p.2.nodeId, h))),
                         error := if 0 < st.failedNodes.length then
                             some ("Failed nodes: " ++
                               String.intercalate ", " st.failedNodes)
                           else none }, st.batches))

instance {α β : Type} [DecidableEq α] [DecidableEq β] : DecidableEq (Except α β) := fun a b =>
  match a, b with
  | Except.ok x, Except.ok y =>
    match decEq x y with
    | isTrue h => isTrue (by rw [h])
    | isFalse h => isFalse (fun hc => h (by cases hc; rfl))
  | Except.error x, Except.error y =>
    match decEq x y with
    | isTrue h => isTrue (by rw [h])
    | isFalse h => isFalse (fun hc => h (by cases hc; rfl))
  | Except.ok _, Except.error _ => isFalse (fun hc => by cases hc)
  | Except.error _, Except.ok _ => isFalse (fun hc => by cases hc)

/-! ### Claim C2 -/

/-- The chain graph a→b→c. -/
def gChain : TaskGraph :=
  ⟨"run_chain001", [wNode "a" [], wNode "b" ["a"], wNode "c" ["b"]], ⟨4⟩⟩

/-- C2: on the chain a→b→c, when a's executor completes with handles `H`
and b's executor returns a failing result on every attempt, `execute`
returns status failed, outputs exactly the (nodeId, handle) pairs of node
a, an error naming node b, and the started batches are [a] then [b] — c is
never attempted. -/
theorem claim_C2 (H : List String) (o : String → NodeExecutionResult) (run : RunSpec)
    (ha : o "a" = ⟨"a", NodeStatus.completed, H, none, 0⟩)
    (hb : (o "b").status = NodeStatus.failed) :
    execute 4 o run gChain = some (Except.ok
      ({ runId := run.runId, status := "failed",
         outputs := H.map (fun h => ("a", h)),
         error := some "Failed nodes: b" }, [["a"], ["b"]])) := by
  have hval : (validate gChain).1 = true := by decide
  have hbne : ¬ ((o "b").status = NodeStatus.completed) := by rw [hb]; decide
  have h1 : executeNode (fun _ => o "a") (wNode "a" []) =
      ⟨"a", NodeStatus.completed, H, none, 0⟩ := by
    simp [executeNode, executeWithRetry, retryGo, wNode, defaultRetryPolicy, jsOrNat,
      jsOrRat, ha]
  have h2 : executeNode (fun _ => o "b") (wNode "b" ["a"]) =
      ⟨"b", NodeStatus.failed, [],
        some (jsOrStr (o "b").error "Node did not complete successfully"), 0⟩ := by
    simp [executeNode, executeWithRetry, retryGo, wNode, defaultRetryPolicy, jsOrNat,
      jsOrRat, hbne]
  unfold execute
  rw [if_neg (by rw [hval]; decide)]
  simp only [jsOrNat]
  norm_num
  have hw1 : ∀ (i : String) (d : List String), (wNode i d).id = i := fun _ _ => rfl
  have hw2 : ∀ (i : String) (d : List String), (wNode i d).deps = d := fun _ _ => rfl
  simp [execLoop, getReadyNodes, gChain, sortReady, chunksOf, runBatches, executeBatch,
    processResults, mapSet, addSet, h1, h2, hw1, hw2, List.insertionSort, List.orderedInsert]
  decide

/-- A concrete executor for the C2 witness. -/
def oChainCex : String → NodeExecutionResult := fun id =>
  if id = "a" then ⟨"a", NodeStatus.completed, ["h1", "h2"], none, 0⟩
  else ⟨id, NodeStatus.failed, [], some "boom", 0⟩

theorem claim_C2_witness :
    oChainCex "a" = ⟨"a", NodeStatus.completed, ["h1", "h2"], none, 0⟩ ∧
    (oChainCex "b").status = NodeStatus.failed ∧
    execute 4 oChainCex ⟨"run_x0000001", "obj"⟩ gChain = some (Except.ok
      ({ runId := "run_x0000001", status := "failed",
         outputs := [("a", "h1"), ("a", "h2")],
         error := some "Failed nodes: b" }, [["a"], ["b"]])) :=
  ⟨by decide, by decide,
    claim_C2 ["h1", "h2"] oChainCex ⟨"run_x0000001", "obj"⟩ (by decide) (by decide)⟩

/-! ### Claim C3 -/

/-- The retry loop under an always-failing executor: it uses every
remaining attempt, sleeps between consecutive attempts with
exponentially growing delays, and throws the last error. -/
theorem retryGo_allFail (exec : Nat → NodeExecutionResult) (rate : ℚ)
    (hfail : ∀ n, (exec n).status ≠ NodeStatus.completed) :
    ∀ (rem attempt : Nat) (delay : ℚ) (sleeps : List ℚ) (lastErr : Option String),
      0 < rem →
      retryGo exec rate rem attempt delay sleeps lastErr =
        (Except.error (jsOrStr (exec (attempt + rem)).error
            "Node did not complete successfully"),
         attempt + rem,
         sleeps ++ (List.range (rem - 1)).map (fun i => delay * (jsOrRat rate 2) ^ i)) := by
  intro rem
  induction rem with
  | zero => intro attempt delay sleeps lastErr h; omega
  | succ r ih =>
    intro attempt delay sleeps lastErr _
    simp only [retryGo]
    rw [if_neg (hfail (attempt + 1))]
    cases r with
    | zero => simp [retryGo]
    | succ r2 =>
      rw [if_pos (by omega)]
      rw [ih (attempt + 1) (delay * jsOrRat rate 2) (sleeps ++ [delay]) _ (by omega)]
      have harith : attempt + 1 + (r2 + 1) = attempt + (r2 + 1 + 1) := by omega
      have hsl : (List.range (r2 + 1)).map (fun i => delay * jsOrRat rate 2 ^ i) =
          delay :: (List.range r2).map
            (fun i => delay * jsOrRat rate 2 * jsOrRat rate 2 ^ i) := by
        rw [List.range_succ_eq_map]
        simp only [List.map_cons, pow_zero, mul_one, List.map_map]
        refine congrArg _ ?_
        apply List.map_congr_left
        intro i _
        show delay * jsOrRat rate 2 ^ (i + 1) = delay * jsOrRat rate 2 * jsOrRat rate 2 ^ i
        ring
      simp only [Prod.mk.injEq]
      refine ⟨?_, ?_, ?_⟩
      · rw [harith]
      · omega
      · rw [List.append_assoc]
        refine congrArg _ ?_
        have hr1 : r2 + 1 + 1 - 1 = r2 + 1 := by omega
        have hr2 : r2 + 1 - 1 = r2 := by omega
        rw [hr1, hr2, hsl]
        rfl

/-- C3: for a node with retriesAllowed, schema-conformant policy numbers
(maxAttempts ≥ 1, intervalSeconds ≥ 1, backoffRate ≥ 1) and an executor
that never returns a completed result, the executor is invoked exactly
maxAttempts times; the n-th inter-attempt sleep (0-indexed i = n-1) is
intervalSeconds·backoffRate^(n-1) seconds, recorded here in milliseconds,
with maxAttempts-1 sleeps so none after the final attempt; the retry loop
throws the last attempt's error, and `executeNode` catches it into a plain
failed result carrying that error, so no exception escapes the batch
join. -/
theorem claim_C3 (p : RetryPolicy) (exec : Nat → NodeExecutionResult) (node : NodeSpec)
    (hra : p.retriesAllowed = true) (h1 : 1 ≤ p.maxAttempts)
    (hi : 1 ≤ p.intervalSeconds) (hbr : 1 ≤ p.backoffRate)
    (hnode : node.retryPolicy = some p)
    (hfail : ∀ n, (exec n).status ≠ NodeStatus.completed) :
    executeWithRetry exec (some p) =
      (Except.error (jsOrStr (exec p.maxAttempts).error
          "Node did not complete successfully"),
       p.maxAttempts,
       (List.range (p.maxAttempts - 1)).map
         (fun i => p.intervalSeconds * 1000 * p.backoffRate ^ i)) ∧
    executeNode exec node =
      ⟨node.id, NodeStatus.failed, [],
        some (jsOrStr (exec p.maxAttempts).error "Node did not complete successfully"),
        0⟩ := by
  have hmaxne : p.maxAttempts ≠ 0 := by omega
  have hine : p.intervalSeconds ≠ 0 := by
    intro hc
    rw [hc] at hi
    norm_num at hi
  have hbne : p.backoffRate ≠ 0 := by
    intro hc
    rw [hc] at hbr
    norm_num at hbr
  have hj1 : jsOrNat p.maxAttempts 3 = p.maxAttempts := by
    unfold jsOrNat
    rw [if_neg hmaxne]
  have hj2 : jsOrRat p.intervalSeconds 5 = p.intervalSeconds := by
    unfold jsOrRat
    rw [if_neg hine]
  have hj3 : jsOrRat p.backoffRate 2 = p.backoffRate := by
    unfold jsOrRat
    rw [if_neg hbne]
  have hmain : executeWithRetry exec (some p) =
      (Except.error (jsOrStr (exec p.maxAttempts).error
          "Node did not complete successfully"),
       p.maxAttempts,
       (List.range (p.maxAttempts - 1)).map
         (fun i => p.intervalSeconds * 1000 * p.backoffRate ^ i)) := by
    unfold executeWithRetry
    simp only [Option.getD]
    rw [if_neg (by rw [hra]; simp)]
    rw [hj1, hj2]
    rw [retryGo_allFail exec p.backoffRate hfail p.maxAttempts 0
      (p.intervalSeconds * 1000) [] none (by omega)]
    simp only [Nat.zero_add, List.nil_append, hj3]
  refine ⟨hmain, ?_⟩
  unfold executeNode
  rw [hnode, hmain]

/-- A concrete always-failing node for the C3 witness. -/
def nodeRetryCex : NodeSpec :=
  ⟨"x1", "execute", "obj", [], ⟨"ns"⟩, some ⟨true, 3, 5, 2⟩⟩

def oRetryCex : Nat → NodeExecutionResult :=
  fun _ => ⟨"x1", NodeStatus.failed, [], some "boom", 0⟩

theorem claim_C3_witness :
    (∀ n, (oRetryCex n).status ≠ NodeStatus.completed) ∧
    (executeWithRetry oRetryCex (some ⟨true, 3, 5, 2⟩) =
      (Except.error (jsOrStr (oRetryCex 3).error "Node did not complete successfully"),
       3,
       (List.range 2).map (fun i => (5 : ℚ) * 1000 * 2 ^ i)) ∧
    executeNode oRetryCex nodeRetryCex =
      ⟨"x1", NodeStatus.failed, [],
        some (jsOrStr (oRetryCex 3).error "Node did not complete successfully"), 0⟩) :=
  And.intro
    (fun _ hc => by cases hc)
    (claim_C3 ⟨true, 3, 5, 2⟩ oRetryCex nodeRetryCex rfl (by norm_num) (by norm_num)
      (by norm_num) rfl (fun _ hc => by cases hc))

/-! ### Claim C5 -/

theorem mem_of_mem_chunksOf :
    ∀ (k fuel : Nat) (l c : List NodeSpec), c ∈ chunksOf k fuel l → ∀ x ∈ c, x ∈ l := by
  intro k fuel
  induction fuel with
  | zero => intro l c hc; simp [chunksOf] at hc
  | succ fuel ih =>
    intro l c hc x hx
    cases l with
    | nil => simp [chunksOf] at hc
    | cons a l2 =>
      simp only [chunksOf] at hc
      rcases List.mem_cons.mp hc with rfl | hc
      · exact List.mem_of_mem_take hx
      · exact List.mem_of_mem_drop (ih _ c hc x hx)

theorem length_of_mem_chunksOf :
    ∀ (k fuel : Nat) (l c : List NodeSpec), c ∈ chunksOf k fuel l → c.length ≤ k := by
  intro k fuel
  induction fuel with
  | zero => intro l c hc; simp [chunksOf] at hc
  | succ fuel ih =>
    intro l c hc
    cases l with
    | nil => simp [chunksOf] at hc
    | cons a l2 =>
      simp only [chunksOf] at hc
      rcases List.mem_cons.mp hc with rfl | hc
      · rw [List.length_take]
        omega
      · exact ih _ c hc

theorem pairwise_of_mem_chunksOf (r : NodeSpec → NodeSpec → Prop) :
    ∀ (k fuel : Nat) (l c : List NodeSpec), l.Pairwise r → c ∈ chunksOf k fuel l →
      c.Pairwise r := by
  intro k fuel
  induction fuel with
  | zero => intro l c _ hc; simp [chunksOf] at hc
  | succ fuel ih =>
    intro l c hp hc
    cases l with
    | nil => simp [chunksOf] at hc
    | cons a l2 =>
      simp only [chunksOf] at hc
      rcases List.mem_cons.mp hc with rfl | hc
      · exact List.Pairwise.sublist (List.take_sublist _ _) hp
      · exact ih _ c (List.Pairwise.sublist (List.drop_sublist _ _) hp) hc

theorem executeBatch_congr (o1 o2 : String → NodeExecutionResult) (nodes : List NodeSpec)
    (h : ∀ n ∈ nodes, o1 n.id = o2 n.id) : executeBatch o1 nodes = executeBatch o2 nodes := by
  unfold executeBatch
  apply List.map_congr_left
  intro n hn
  rw [h n hn]

theorem runBatches_congr (o1 o2 : String → NodeExecutionResult) :
    ∀ (chunks : List (List NodeSpec)) (st : ExecState),
      (∀ c ∈ chunks, ∀ n ∈ c, o1 n.id = o2 n.id) →
      runBatches o1 chunks st = runBatches o2 chunks st := by
  intro chunks
  induction chunks with
  | nil => intro st _; rfl
  | cons c rest ih =>
    intro st h
    simp only [runBatches]
    rw [executeBatch_congr o1 o2 c (h c (by simp))]
    split
    · rfl
    · exact ih _ (fun c2 hc2 n hn => h c2 (by simp [hc2]) n hn)

theorem execLoop_congr (o1 o2 : String → NodeExecutionResult) (g : TaskGraph) (maxPar : Nat)
    (h : ∀ n ∈ g.nodes, o1 n.id = o2 n.id) :
    ∀ (fuel : Nat) (st : ExecState),
      execLoop o1 g maxPar fuel st = execLoop o2 g maxPar fuel st := by
  intro fuel
  induction fuel with
  | zero => intro st; rfl
  | succ fuel ih =>
    intro st
    simp only [execLoop]
    split
    · split
      · rfl
      · have hrb : runBatches o1
            (chunksOf maxPar (sortReady ((getReadyNodes g (st.completedNodes.map (fun p => p.1))).filter (fun n => n.id ∉ st.failedNodes))).length
              (sortReady ((getReadyNodes g (st.completedNodes.map (fun p => p.1))).filter (fun n => n.id ∉ st.failedNodes)))) st =
          runBatches o2
            (chunksOf maxPar (sortReady ((getReadyNodes g (st.completedNodes.map (fun p => p.1))).filter (fun n => n.id ∉ st.failedNodes))).length
              (sortReady ((getReadyNodes g (st.completedNodes.map (fun p => p.1))).filter (fun n => n.id ∉ st.failedNodes)))) st := by
          apply runBatches_congr
          intro c hc n hn
          apply h
          have hn2 := mem_of_mem_chunksOf _ _ _ c hc n hn
          have hn3 : n ∈ (getReadyNodes g (st.completedNodes.map (fun p => p.1))).filter
              (fun n => n.id ∉ st.failedNodes) :=
            (List.perm_insertionSort _ _).mem_iff.mp hn2
          have hn4 := (List.mem_filter.mp hn3).1
          unfold getReadyNodes at hn4
          exact (List.mem_filter.mp hn4).1
        rw [hrb, ih]
    · rfl

theorem execute_congr (cfg : Nat) (o1 o2 : String → NodeExecutionResult) (run : RunSpec)
    (g : TaskGraph) (h : ∀ n ∈ g.nodes, o1 n.id = o2 n.id) :
    execute cfg o1 run g = execute cfg o2 run g := by
  unfold execute
  split
  · rfl
  · rw [execLoop_congr o1 o2 g _ h]


theorem processResults_batches (rs : List NodeExecutionResult) :
    ∀ st : ExecState, (processResults rs st).batches = st.batches := by
  unfold processResults
  induction rs with
  | nil => intro st; rfl
  | cons r rest ih =>
    intro st
    simp only [List.foldl_cons]
    rw [ih]
    split
    · rfl
    · split
      · rfl
      · rfl

theorem runBatches_batches (o : String → NodeExecutionResult) :
    ∀ (chunks : List (List NodeSpec)) (st : ExecState) (b : List String),
      b ∈ (runBatches o chunks st).batches →
      b ∈ st.batches ∨ ∃ c ∈ chunks, b = c.map (fun n => n.id) := by
  intro chunks
  induction chunks with
  | nil => intro st b hb; exact Or.inl hb
  | cons c rest ih =>
    intro st b hb
    simp only [runBatches] at hb
    have hb3 : ∀ hmem : b ∈ (processResults (executeBatch o c)
        { st with batches := st.batches ++ [c.map (fun n => n.id)] }).batches,
        b ∈ st.batches ∨ ∃ c2 ∈ c :: rest, b = c2.map (fun n => n.id) := by
      intro hmem
      rw [processResults_batches] at hmem
      rcases List.mem_append.mp hmem with hmem | hmem
      · exact Or.inl hmem
      · exact Or.inr ⟨c, by simp, List.mem_singleton.mp hmem⟩
    split at hb
    · exact hb3 hb
    · rcases ih _ b hb with hold | ⟨c2, hc2, hbe⟩
      · rw [processResults_batches] at hold
        rcases List.mem_append.mp hold with hmem | hmem
        · exact Or.inl hmem
        · exact Or.inr ⟨c, by simp, List.mem_singleton.mp hmem⟩
      · exact Or.inr ⟨c2, by simp [hc2], hbe⟩

theorem charListLe_total : ∀ (a b : List Char), charListLe a b = true ∨ charListLe b a = true := by
  intro a
  induction a with
  | nil => intro b; left; rfl
  | cons x xs ih =>
    intro b
    cases b with
    | nil => right; rfl
    | cons y ys =>
      by_cases h1 : x.toNat < y.toNat
      · left; simp [charListLe, h1]
      · by_cases h2 : y.toNat < x.toNat
        · right; simp [charListLe, h2]
        · rcases ih ys with h | h
          · left; simp [charListLe, h1, h2, h]
          · right; simp [charListLe, h1, h2, h]

theorem charListLe_trans : ∀ (a b c : List Char),
    charListLe a b = true → charListLe b c = true → charListLe a c = true := by
  intro a
  induction a with
  | nil => intro b c _ _; rfl
  | cons x xs ih =>
    intro b c hab hbc
    cases b with
    | nil => simp [charListLe] at hab
    | cons y ys =>
      cases c with
      | nil => simp [charListLe] at hbc
      | cons z zs =>
        simp only [charListLe] at hab hbc ⊢
        by_cases hxy : x.toNat < y.toNat
        · by_cases hyz : y.toNat < z.toNat
          · rw [if_pos (Nat.lt_trans hxy hyz)]
          · by_cases hzy : z.toNat < y.toNat
            · rw [if_neg hyz, if_pos hzy] at hbc
              exact absurd hbc (by decide)
            · rw [if_pos (show x.toNat < z.toNat by omega)]
        · by_cases hyx : y.toNat < x.toNat
          · rw [if_neg hxy, if_pos hyx] at hab
            exact absurd hab (by decide)
          · rw [if_neg hxy, if_neg hyx] at hab
            by_cases hyz : y.toNat < z.toNat
            · rw [if_pos (show x.toNat < z.toNat by omega)]
            · by_cases hzy : z.toNat < y.toNat
              · rw [if_neg hyz, if_pos hzy] at hbc
                exact absurd hbc (by decide)
              · rw [if_neg hyz, if_neg hzy] at hbc
                rw [if_neg (show ¬ x.toNat < z.toNat by omega),
                    if_neg (show ¬ z.toNat < x.toNat by omega)]
                exact ih ys zs hab hbc

theorem strLeB_total (a b : String) : strLeB a b = true ∨ strLeB b a = true :=
  charListLe_total a.data b.data

theorem strLeB_trans {a b c : String} (h1 : strLeB a b = true) (h2 : strLeB b c = true) :
    strLeB a c = true :=
  charListLe_trans a.data b.data c.data h1 h2

instance : IsTotal NodeSpec (fun a b => strLeB a.id b.id = true) :=
  ⟨fun a b => strLeB_total a.id b.id⟩

instance : IsTrans NodeSpec (fun a b => strLeB a.id b.id = true) :=
  ⟨fun _ _ _ h1 h2 => strLeB_trans h1 h2⟩

theorem execLoop_batches (o : String → NodeExecutionResult) (g : TaskGraph) (maxPar : Nat) :
    ∀ (fuel : Nat) (st st2 : ExecState),
      execLoop o g maxPar fuel st = some (Except.ok st2) →
      (∀ b ∈ st.batches, b.Pairwise (fun x y => strLeB x y = true) ∧ b.length ≤ maxPar) →
      ∀ b ∈ st2.batches, b.Pairwise (fun x y => strLeB x y = true) ∧ b.length ≤ maxPar := by
  intro fuel
  induction fuel with
  | zero => intro st st2 h; cases h
  | succ fuel ih =>
    intro st st2 h hstart
    simp only [execLoop] at h
    split at h
    · split at h
      · split at h
        · cases h
          exact hstart
        · cases h
      · have hmid : ∀ b ∈ (runBatches o
            (chunksOf maxPar (sortReady ((getReadyNodes g (st.completedNodes.map (fun p => p.1))).filter (fun n => n.id ∉ st.failedNodes))).length
              (sortReady ((getReadyNodes g (st.completedNodes.map (fun p => p.1))).filter (fun n => n.id ∉ st.failedNodes)))) st).batches,
            b.Pairwise (fun x y => strLeB x y = true) ∧ b.length ≤ maxPar := by
          intro b hb
          rcases runBatches_batches o _ _ b hb with hold | ⟨c, hc, hbe⟩
          · exact hstart b hold
          · subst hbe
            have hsorted : (sortReady ((getReadyNodes g (st.completedNodes.map (fun p => p.1))).filter (fun n => n.id ∉ st.failedNodes))).Pairwise
                (fun a b => strLeB a.id b.id = true) := by
              unfold sortReady
              exact List.sorted_insertionSort _ _
            have hcp := pairwise_of_mem_chunksOf _ _ _ _ _ hsorted hc
            have hcl := length_of_mem_chunksOf _ _ _ _ hc
            constructor
            · rw [List.pairwise_map]
              exact hcp
            · rw [List.length_map]
              exact hcl
        split at h
        · cases h
          exact hmid
        · exact ih _ st2 h hmid
    · cases h
      exact hstart

/-- C5: with a fixed graph and a fixed assignment of outcomes to node ids,
any two executions produce the identical result and batch sequence (replay
determinism), and every started batch is sorted lexicographically by node
id with size at most the effective maxParallelism. -/
theorem claim_C5 (g : TaskGraph) (o1 o2 : String → NodeExecutionResult) (run : RunSpec)
    (cfg : Nat) (res : RunResult) (trace : List (List String)) (b : List String)
    (hagree : ∀ n ∈ g.nodes, o1 n.id = o2 n.id)
    (hrun : execute cfg o1 run g = some (Except.ok (res, trace)))
    (hb : b ∈ trace) :
    execute cfg o2 run g = some (Except.ok (res, trace)) ∧
    b.Pairwise (fun x y => strLeB x y = true) ∧
    b.length ≤ jsOrNat g.global.maxParallelism (jsOrNat cfg 4) := by
  constructor
  · rw [← execute_congr cfg o1 o2 run g hagree]
    exact hrun
  · unfold execute at hrun
    split at hrun
    · cases hrun
      simp at hb
    · cases hloop : execLoop o1 g (jsOrNat g.global.maxParallelism (jsOrNat cfg 4))
        (g.nodes.length + 1) ⟨[], [], []⟩ with
      | none => rw [hloop] at hrun; cases hrun
      | some r =>
        rw [hloop] at hrun
        cases r with
        | error e => cases hrun
        | ok st =>
          have hshape := execLoop_batches o1 g _ _ _ _ hloop (by intro b2 hb2; simp at hb2)
          cases hrun
          exact hshape b hb

/-- All-completing outcome for the C5 witness on the diamond graph. -/
def oDiamond : String → NodeExecutionResult :=
  fun id => ⟨id, NodeStatus.completed, [], none, 0⟩

theorem claim_C5_witness :
    (∀ n ∈ gDiamond.nodes, oDiamond n.id = oDiamond n.id) ∧
    execute 4 oDiamond ⟨"run_x0000001", "obj"⟩ gDiamond = some (Except.ok
      ({ runId := "run_x0000001", status := "complete", outputs := [],
         error := none }, [["a"], ["b", "c"], ["d"]])) ∧
    ["b", "c"] ∈ [["a"], ["b", "c"], ["d"]] ∧
    (execute 4 oDiamond ⟨"run_x0000001", "obj"⟩ gDiamond = some (Except.ok
      ({ runId := "run_x0000001", status := "complete", outputs := [],
         error := none }, [["a"], ["b", "c"], ["d"]])) ∧
     List.Pairwise (fun x y => strLeB x y = true) ["b", "c"] ∧
     (["b", "c"] : List String).length ≤
       jsOrNat gDiamond.global.maxParallelism (jsOrNat 4 4)) :=
  ⟨fun _ _ => rfl, by decide, by decide,
    claim_C5 gDiamond oDiamond oDiamond ⟨"run_x0000001", "obj"⟩ 4 _ _ ["b", "c"]
      (fun _ _ => rfl) (by decide) (by decide)⟩

/-! ### Memory, playbook and artifact stores (maintenance subsystem) -/

/-- `MemoryItem` (MemoryItemSchema): confidence is a number in [0, 1],
modelled as a rational. -/
structure MemoryItem where
  id : String
  text : String
  evidenceRefs : List String
  confidence : ℚ
deriving DecidableEq, Repr

/-- The five in-memory category collections of `MemoryStore`
(`this.memory`, one `.jsonl` file per category on disk). -/
structure Memory where
  facts : List MemoryItem
  constraints : List MemoryItem
  preferences : List MemoryItem
  tactics : List MemoryItem
  pitfalls : List MemoryItem
deriving DecidableEq, Repr

/-- `MemoryAdds` (MemoryAddsSchema). -/
structure MemoryAdds where
  facts : List MemoryItem
  constraints : List MemoryItem
  preferences : List MemoryItem
  tactics : List MemoryItem
  pitfalls : List MemoryItem
deriving DecidableEq, Repr

/-- `MemoryDelta` (MemoryDeltaSchema). -/
structure MemoryDelta where
  runId : String
  nodeId : String
  adds : MemoryAdds
  createdAt : String
deriving DecidableEq, Repr

/-- `PlaybookOp` (PlaybookOpSchema): `op` ranges over the enum strings
ADD_BULLET / REMOVE_BULLET / EDIT_BULLET, `targetFile` over playbook.md /
pitfalls.md / policies.md; `bulletId`, `before` and `after` are optional. -/
structure PlaybookOp where
  op : String
  targetFile : String
  bulletId : Option String
  before : Option String
  after : Option String
  reason : String
  evidenceRefs : List String
  confidence : ℚ
deriving DecidableEq, Repr

/-- `PlaybookDiff` (PlaybookDiffSchema). -/
structure PlaybookDiff where
  runId : String
  nodeId : String
  ops : List PlaybookOp
  createdAt : String
deriving DecidableEq, Repr

/-- The `PlaybookStore` state: the three markdown files plus the
`diff_history.jsonl` audit log. -/
structure PlaybookState where
  playbookMd : String
  pitfallsMd : String
  policiesMd : String
  diffHistory : List PlaybookDiff
deriving DecidableEq, Repr

/-- A node `Reflection` (ReflectionSchema). -/
structure Reflection where
  whatWorked : List String
  whatFailed : List String
  nextTime : List String
  missingInfo : List String
  brittleAssumptions : List String
deriving DecidableEq, Repr

/-- The JSON values `Curator.curate` serialises into the artifact store. -/
inductive ArtifactValue where
  | memoryDelta (d : MemoryDelta)
  | playbookDiff (d : PlaybookDiff)
deriving DecidableEq, Repr

/-- Combined store state.  Each TS store writes under its own base path,
so the artifact tree (keyed by namespace and file name), the memory
categories and the playbook files are disjoint state components. -/
structure World where
  artifacts : String × String → Option ArtifactValue
  memory : Memory
  playbook : PlaybookState

/-- `ArtifactStore.putJson`: (over)writes `basePath/namespace/name`.  The
side metadata file (`name + ".meta.json"`) and the returned handle do not
affect any store and are elided. -/
def putJson (w : World) (ns name : String) (v : ArtifactValue) : World :=
  { w with artifacts := fun k => if k = (ns, name) then some v else w.artifacts k }

/-- `MemoryStore.createItem`; `uuid` is the fresh uuidv4 value drawn for
the item. -/
def createItem (uuid : String) (text : String) (evidenceRefs : List String)
    (confidence : ℚ) : MemoryItem :=
  ⟨uuid, text, evidenceRefs, confidence⟩

/-- The first `n` characters of a string (`s.substring(0, n)`). -/
def strTake (s : String) (n : Nat) : String := ⟨s.data.take n⟩

/-- `PlaybookStore.addBullet`; `uuid` is the fresh uuidv4 value drawn for
the bullet id. -/
def addBullet (uuid : String) (targetFile text reason : String)
    (evidenceRefs : List String) (confidence : ℚ) : PlaybookOp :=
  { op := "ADD_BULLET", targetFile := targetFile,
    bulletId := some (strTake uuid 8), before := none, after := some text,
    reason := reason, evidenceRefs := evidenceRefs, confidence := confidence }

/-- `Curator.generateMemoryDelta`: whatWorked → facts at 0.8, whatFailed →
pitfalls at 0.9, nextTime → tactics at 0.7, each item citing the node's
reflection artifact.  `uuid i` models the i-th uuidv4 drawn while the
delta is built (facts first, then pitfalls, then tactics, as in the
source object literal). -/
def generateMemoryDelta (uuid : Nat → String) (now : String) (run : RunSpec)
    (node : NodeSpec) (refl : Reflection) : MemoryDelta :=
  let evidenceRef := node.scope.artifactNamespace ++ "/reflection.json"
  { runId := run.runId, nodeId := node.id,
    adds :=
      { facts := refl.whatWorked.mapIdx (fun i w =>
          createItem (uuid i) w [evidenceRef] (4/5)),
        constraints := [],
        preferences := [],
        tactics := refl.nextTime.mapIdx (fun i n =>
          createItem (uuid (refl.whatWorked.length + refl.whatFailed.length + i)) n
            [evidenceRef] (7/10)),
        pitfalls := refl.whatFailed.mapIdx (fun i f =>
          createItem (uuid (refl.whatWorked.length + i)) f [evidenceRef] (9/10)) },
    createdAt := now }

/-- `Curator.generatePlaybookDiff`: at most three tactic adds and three
pitfall adds, with a fallback op when the reflection yields none.
`uuid i` models the i-th uuidv4 drawn while the diff is built. -/
def generatePlaybookDiff (uuid : Nat → String) (now : String) (run : RunSpec)
    (node : NodeSpec) (refl : Reflection) : PlaybookDiff :=
  let evidenceRef := node.scope.artifactNamespace ++ "/reflection.json"
  let tacticOps := (refl.nextTime.take 3).mapIdx (fun i t =>
    addBullet (uuid i) "playbook.md" t ("Learned from " ++ node.id)
      [evidenceRef] (7/10))
  let failureOps := (refl.whatFailed.take 3).mapIdx (fun i f =>
    addBullet (uuid ((refl.nextTime.take 3).length + i)) "pitfalls.md" f
      ("Failure in " ++ node.id) [evidenceRef] (9/10))
  let ops := tacticOps ++ failureOps
  { runId := run.runId, nodeId := node.id,
    ops := if ops.isEmpty then
        [addBullet (uuid 0) "playbook.md"
          ("Completed " ++ node.type ++ " node: " ++ strTake node.objective 50)
          ("Node " ++ node.id ++ " completed") [evidenceRef] (1/2)]
      else ops,
    createdAt := now }

/-- `Curator.curate`: generates the delta and the diff, stages both as
artifacts under the node's artifact namespace, and returns them.  The
method body calls no method of `MemoryStore` or `PlaybookStore`; those
stores mutate only through `applyMemoryDelta` / `applyDiff`. -/
def curate (uuidD uuidP : Nat → String) (now : String) (w : World)
    (run : RunSpec) (node : NodeSpec) (refl : Reflection) :
    World × MemoryDelta × PlaybookDiff :=
  let memoryDelta := generateMemoryDelta uuidD now run node refl
  let playbookDiff := generatePlaybookDiff uuidP now run node refl
  let w1 := putJson w node.scope.artifactNamespace "memory_delta.json"
    (ArtifactValue.memoryDelta memoryDelta)
  let w2 := putJson w1 node.scope.artifactNamespace "playbook_diff.json"
    (ArtifactValue.playbookDiff playbookDiff)
  (w2, memoryDelta, playbookDiff)

/-- C6: for every run, node and reflection, `Curator.curate` leaves the
memory categories and the playbook files (and diff history) unchanged and
changes the artifact tree exactly at the two staged entries
`memory_delta.json` and `playbook_diff.json` of the node's artifact
namespace, which afterwards hold the returned delta and diff. -/
theorem claim_C6 (uuidD uuidP : Nat → String) (now : String) (w : World)
    (run : RunSpec) (node : NodeSpec) (refl : Reflection) :
    (curate uuidD uuidP now w run node refl).1.memory = w.memory ∧
    (curate uuidD uuidP now w run node refl).1.playbook = w.playbook ∧
    (curate uuidD uuidP now w run node refl).1.artifacts
        (node.scope.artifactNamespace, "memory_delta.json") =
      some (ArtifactValue.memoryDelta (curate uuidD uuidP now w run node refl).2.1) ∧
    (curate uuidD uuidP now w run node refl).1.artifacts
        (node.scope.artifactNamespace, "playbook_diff.json") =
      some (ArtifactValue.playbookDiff (curate uuidD uuidP now w run node refl).2.2) ∧
    ∀ k : String × String,
      (curate uuidD uuidP now w run node refl).1.artifacts k =
        if k = (node.scope.artifactNamespace, "playbook_diff.json") then
          some (ArtifactValue.playbookDiff (curate uuidD uuidP now w run node refl).2.2)
        else if k = (node.scope.artifactNamespace, "memory_delta.json") then
          some (ArtifactValue.memoryDelta (curate uuidD uuidP now w run node refl).2.1)
        else w.artifacts k := by
  refine ⟨rfl, rfl, ?_, ?_, fun k => rfl⟩
  · simp [curate, putJson]
  · simp [curate, putJson]

/-- JS `Array.prototype.findIndex`, with `none` for -1. -/
def findIndex {α : Type} (p : α → Bool) : List α → Option Nat
  | [] => none
  | a :: t => if p a then some 0 else (findIndex p t).map (· + 1)

/-- `MemoryStore.addItem` on one category list: upsert by id (replace the
first item with the same id, else append). -/
def addItem (items : List MemoryItem) (item : MemoryItem) : List MemoryItem :=
  match findIndex (fun i => i.id = item.id) items with
  | some idx => items.set idx item
  | none => items ++ [item]

/-- The `for (const item of items) await this.addItem(category, item)`
loop of `applyMemoryDelta` on one category. -/
def addItems (items : List MemoryItem) (adds : List MemoryItem) : List MemoryItem :=
  adds.foldl addItem items

/-- `MemoryStore.applyMemoryDelta`: upsert every added item, category by
category. -/
def applyMemoryDelta (m : Memory) (delta : MemoryDelta) : Memory :=
  { facts := addItems m.facts delta.adds.facts,
    constraints := addItems m.constraints delta.adds.constraints,
    preferences := addItems m.preferences delta.adds.preferences,
    tactics := addItems m.tactics delta.adds.tactics,
    pitfalls := addItems m.pitfalls delta.adds.pitfalls }

theorem findIndex_some_spec {α : Type} (p : α → Bool) :
    ∀ (l : List α) (i : Nat), findIndex p l = some i →
      ∃ x, l[i]? = some x ∧ p x = true := by
  intro l
  induction l with
  | nil => intro i h; cases h
  | cons a t ih =>
    intro i h
    unfold findIndex at h
    by_cases hpa : p a = true
    · rw [if_pos hpa] at h
      cases h
      exact ⟨a, by simp, hpa⟩
    · rw [if_neg hpa] at h
      cases hft : findIndex p t with
      | none => rw [hft] at h; cases h
      | some j =>
        rw [hft] at h
        have hji : j + 1 = i := by
          simpa using h
        subst hji
        rcases ih j hft with ⟨x, hx, hpx⟩
        exact ⟨x, by rw [List.getElem?_cons_succ]; exact hx, hpx⟩

theorem findIndex_none_spec {α : Type} (p : α → Bool) :
    ∀ l : List α, findIndex p l = none → ∀ x ∈ l, p x = false := by
  intro l
  induction l with
  | nil => intro _ x hx; cases hx
  | cons a t ih =>
    intro h x hx
    unfold findIndex at h
    by_cases hpa : p a = true
    · rw [if_pos hpa] at h; cases h
    · rw [if_neg hpa] at h
      rcases List.mem_cons.mp hx with hxa | hxt
      · subst hxa; exact Bool.eq_false_iff.mpr hpa
      · cases hft : findIndex p t with
        | none => exact ih hft x hxt
        | some j => rw [hft] at h; cases h

theorem findIndex_map {α β : Type} (f : α → β) (p : β → Bool) :
    ∀ l : List α, findIndex p (l.map f) = findIndex (fun a => p (f a)) l := by
  intro l
  induction l with
  | nil => rfl
  | cons a t ih => simp only [List.map_cons, findIndex, ih]

theorem findIndex_append_some {α : Type} (p : α → Bool) :
    ∀ (l t : List α) (i : Nat), findIndex p l = some i →
      findIndex p (l ++ t) = some i := by
  intro l
  induction l with
  | nil => intro t i h; cases h
  | cons a l ih =>
    intro t i h
    rw [List.cons_append]
    simp only [findIndex] at h ⊢
    by_cases hpa : p a = true
    · rw [if_pos hpa] at h ⊢; exact h
    · rw [if_neg hpa] at h ⊢
      cases hfl : findIndex p l with
      | none => rw [hfl] at h; cases h
      | some j => rw [hfl] at h; rw [ih t j hfl]; exact h

theorem findIndex_lt_length {α : Type} (p : α → Bool) :
    ∀ (l : List α) (i : Nat), findIndex p l = some i → i < l.length := by
  intro l i h
  rcases findIndex_some_spec p l i h with ⟨x, hx, _⟩
  exact (List.getElem?_eq_some.mp hx).1

theorem set_getElem?_self {α : Type} :
    ∀ (l : List α) (i : Nat) (a : α), l[i]? = some a → l.set i a = l := by
  intro l
  induction l with
  | nil => intro i a h; cases h
  | cons x t ih =>
    intro i a h
    cases i with
    | zero =>
      simp only [List.getElem?_cons_zero, Option.some.injEq] at h
      subst h; rfl
    | succ j =>
      simp only [List.getElem?_cons_succ] at h
      simp [List.set, ih j a h]

theorem getElem?_set_self' {α : Type} :
    ∀ (l : List α) (i : Nat) (a : α), i < l.length → (l.set i a)[i]? = some a := by
  intro l
  induction l with
  | nil => intro i a h; cases h
  | cons x t ih =>
    intro i a h
    cases i with
    | zero => simp [List.set]
    | succ j =>
      simp only [List.set, List.getElem?_cons_succ]
      exact ih j a (Nat.lt_of_succ_lt_succ h)

theorem getElem?_set_ne' {α : Type} :
    ∀ (l : List α) (i j : Nat) (a : α), i ≠ j → (l.set i a)[j]? = l[j]? := by
  intro l
  induction l with
  | nil => intro i j a _; simp
  | cons x t ih =>
    intro i j a hij
    cases i with
    | zero =>
      cases j with
      | zero => exact absurd rfl hij
      | succ k => simp [List.set]
    | succ i2 =>
      cases j with
      | zero => simp [List.set]
      | succ k =>
        simp only [List.set, List.getElem?_cons_succ]
        exact ih i2 k a (fun he => hij (by rw [he]))

theorem findIndex_append_none {α : Type} (p : α → Bool) :
    ∀ (l : List α) (a : α), findIndex p l = none → p a = true →
      findIndex p (l ++ [a]) = some l.length := by
  intro l
  induction l with
  | nil => intro a _ hpa; simp [findIndex, hpa]
  | cons x t ih =>
    intro a h hpa
    rw [List.cons_append]
    simp only [findIndex] at h ⊢
    by_cases hpx : p x = true
    · rw [if_pos hpx] at h; cases h
    · rw [if_neg hpx] at h ⊢
      cases hft : findIndex p t with
      | none => rw [ih a hft hpa]; rfl
      | some j => rw [hft] at h; cases h

theorem addItems_cons (w : List MemoryItem) (a : MemoryItem) (L : List MemoryItem) :
    addItems w (a :: L) = addItems (addItem w a) L := rfl

/-- Two category lists with the same layout of item ids. -/
def SameIds (xs ys : List MemoryItem) : Prop :=
  xs.map (fun i => i.id) = ys.map (fun i => i.id)

theorem findIndex_id_eq (c : String) :
    ∀ xs : List MemoryItem,
      findIndex (fun i => i.id = c) xs =
        findIndex (fun s => s = c) (xs.map (fun i => i.id)) := by
  intro xs
  induction xs with
  | nil => rfl
  | cons a t ih => simp only [List.map_cons, findIndex, ih]

theorem findIndex_congr_ids (c : String) {xs ys : List MemoryItem} (h : SameIds xs ys) :
    findIndex (fun i => i.id = c) xs = findIndex (fun i => i.id = c) ys := by
  rw [findIndex_id_eq, findIndex_id_eq, h]

theorem ids_set_of_same {xs : List MemoryItem} {p : Nat} {x a : MemoryItem}
    (hx : xs[p]? = some x) (hid : x.id = a.id) :
    (xs.set p a).map (fun i => i.id) = xs.map (fun i => i.id) := by
  rw [List.map_set]
  apply set_getElem?_self
  rw [List.getElem?_map, hx]
  simp [hid]

theorem addItem_eq_set {xs : List MemoryItem} {a : MemoryItem} {p : Nat}
    (h : findIndex (fun i => i.id = a.id) xs = some p) :
    addItem xs a = xs.set p a := by
  unfold addItem; rw [h]

theorem addItem_eq_append {xs : List MemoryItem} {a : MemoryItem}
    (h : findIndex (fun i => i.id = a.id) xs = none) :
    addItem xs a = xs ++ [a] := by
  unfold addItem; rw [h]

theorem sameIds_addItem_self {xs : List MemoryItem} {a : MemoryItem} {p : Nat}
    (h : findIndex (fun i => i.id = a.id) xs = some p) :
    SameIds xs (addItem xs a) := by
  rw [addItem_eq_set h]
  rcases findIndex_some_spec _ _ _ h with ⟨x, hx, hpx⟩
  have hid : x.id = a.id := by simpa using hpx
  unfold SameIds
  exact (ids_set_of_same hx hid).symm

theorem addItem_self_at (xs : List MemoryItem) (a : MemoryItem) :
    ∃ q, findIndex (fun i => i.id = a.id) (addItem xs a) = some q ∧
      (addItem xs a)[q]? = some a := by
  cases hfi : findIndex (fun i => i.id = a.id) xs with
  | some p =>
    refine ⟨p, ?_, ?_⟩
    · rw [← findIndex_congr_ids a.id (sameIds_addItem_self hfi)]
      exact hfi
    · rw [addItem_eq_set hfi]
      exact getElem?_set_self' _ _ _ (findIndex_lt_length _ _ _ hfi)
  | none =>
    refine ⟨xs.length, ?_, ?_⟩
    · rw [addItem_eq_append hfi]
      exact findIndex_append_none _ _ _ hfi (by simp)
    · rw [addItem_eq_append hfi, List.getElem?_concat_length]

theorem addItems_untouched :
    ∀ (L w : List MemoryItem) (q : Nat) (v : MemoryItem),
      w[q]? = some v → (∀ b ∈ L, b.id ≠ v.id) → (addItems w L)[q]? = some v := by
  intro L
  induction L with
  | nil => intro w q v hv _; exact hv
  | cons a L ih =>
    intro w q v hv hb
    have hstep : (addItem w a)[q]? = some v := by
      have hav : a.id ≠ v.id := hb a (List.mem_cons_self a L)
      cases hfi : findIndex (fun i => i.id = a.id) w with
      | some p =>
        rw [addItem_eq_set hfi]
        rcases findIndex_some_spec _ _ _ hfi with ⟨x, hx, hpx⟩
        have hpq : p ≠ q := by
          intro hpq
          subst hpq
          rw [hv] at hx
          cases hx
          have hxa : v.id = a.id := by simpa using hpx
          exact hav hxa.symm
        rw [getElem?_set_ne' _ _ _ _ hpq]
        exact hv
      | none =>
        rw [addItem_eq_append hfi,
          List.getElem?_append_left (List.getElem?_eq_some.mp hv).1]
        exact hv
    exact ih (addItem w a) q v hstep (fun b hbL => hb b (List.mem_cons_of_mem a hbL))

theorem ids_addItems_prefix :
    ∀ (L w : List MemoryItem), ∃ t,
      (addItems w L).map (fun i => i.id) = w.map (fun i => i.id) ++ t := by
  intro L
  induction L with
  | nil => intro w; exact ⟨[], by simp [addItems]⟩
  | cons a L ih =>
    intro w
    rcases ih (addItem w a) with ⟨t, ht⟩
    cases hfi : findIndex (fun i => i.id = a.id) w with
    | some p =>
      have hsame : List.map (fun i => i.id) w = List.map (fun i => i.id) (addItem w a) :=
        sameIds_addItem_self hfi
      refine ⟨t, ?_⟩
      rw [addItems_cons, ht, ← hsame]
    | none =>
      refine ⟨a.id :: t, ?_⟩
      rw [addItems_cons, ht, addItem_eq_append hfi]
      simp

theorem findIndex_ids_addItems {w : List MemoryItem} {c : String} {q : Nat}
    (L : List MemoryItem) (h : findIndex (fun i => i.id = c) w = some q) :
    findIndex (fun i => i.id = c) (addItems w L) = some q := by
  rw [findIndex_id_eq] at h ⊢
  rcases ids_addItems_prefix L w with ⟨t, ht⟩
  rw [ht]
  exact findIndex_append_some _ _ _ _ h

theorem addItems_congr_overwrite :
    ∀ (L xs ys : List MemoryItem), SameIds xs ys →
      (∀ p : Nat, ys[p]? = xs[p]? ∨
        ∃ b ∈ L, findIndex (fun i => i.id = b.id) xs = some p) →
      addItems xs L = addItems ys L := by
  intro L
  induction L with
  | nil =>
    intro xs ys hids hcond
    have hxy : ys = xs := by
      apply List.ext_getElem?
      intro p
      rcases hcond p with h | ⟨b, hb, _⟩
      · exact h
      · cases hb
    rw [hxy]
  | cons a L ih =>
    intro xs ys hids hcond
    rw [addItems_cons, addItems_cons]
    have hfe := findIndex_congr_ids a.id hids
    cases hfi : findIndex (fun i => i.id = a.id) xs with
    | some p₀ =>
      have hfiy : findIndex (fun i => i.id = a.id) ys = some p₀ := by
        rw [← hfe]; exact hfi
      rw [addItem_eq_set hfi, addItem_eq_set hfiy]
      have hlt : p₀ < xs.length := findIndex_lt_length _ _ _ hfi
      have hlty : p₀ < ys.length := findIndex_lt_length _ _ _ hfiy
      rcases findIndex_some_spec _ _ _ hfi with ⟨x, hx, hpx⟩
      have hxid : x.id = a.id := by simpa using hpx
      rcases findIndex_some_spec _ _ _ hfiy with ⟨y, hy, hpy⟩
      have hyid : y.id = a.id := by simpa using hpy
      apply ih
      · unfold SameIds
        rw [ids_set_of_same hx hxid, ids_set_of_same hy hyid]
        exact hids
      · intro p
        by_cases hpp : p = p₀
        · subst hpp
          left
          rw [getElem?_set_self' _ _ _ hlt, getElem?_set_self' _ _ _ hlty]
        · rw [getElem?_set_ne' _ _ _ _ (fun he => hpp he.symm),
            getElem?_set_ne' _ _ _ _ (fun he => hpp he.symm)]
          rcases hcond p with h | ⟨b, hb, hfb⟩
          · left; exact h
          · rcases List.mem_cons.mp hb with hba | hbL
            · subst hba
              have hpp₀ : p = p₀ := Option.some.inj (hfb.symm.trans hfi)
              exact absurd hpp₀ hpp
            · right
              refine ⟨b, hbL, ?_⟩
              have hsx : SameIds xs (xs.set p₀ a) := by
                unfold SameIds
                rw [ids_set_of_same hx hxid]
              rw [← findIndex_congr_ids b.id hsx]
              exact hfb
    | none =>
      have hfiy : findIndex (fun i => i.id = a.id) ys = none := by
        rw [← hfe]; exact hfi
      rw [addItem_eq_append hfi, addItem_eq_append hfiy]
      have hlen : xs.length = ys.length := by
        have hc := congrArg List.length hids
        simpa using hc
      apply ih
      · unfold SameIds
        simp only [List.map_append]
        rw [hids]
      · intro p
        rcases Nat.lt_trichotomy p xs.length with hplt | hpe | hpgt
        · rw [List.getElem?_append_left hplt, List.getElem?_append_left (hlen ▸ hplt)]
          rcases hcond p with h | ⟨b, hb, hfb⟩
          · left; exact h
          · rcases List.mem_cons.mp hb with hba | hbL
            · subst hba
              rw [hfb] at hfi
              cases hfi
            · right
              exact ⟨b, hbL, findIndex_append_some _ _ _ _ hfb⟩
        · subst hpe
          left
          have h1 : (xs ++ [a])[xs.length]? = some a := List.getElem?_concat_length _ _
          have h2 : (ys ++ [a])[xs.length]? = some a := by
            rw [hlen]
            exact List.getElem?_concat_length _ _
          rw [h1, h2]
        · left
          have hx1 : (xs ++ [a])[p]? = none := List.getElem?_eq_none (by simp; omega)
          have hy1 : (ys ++ [a])[p]? = none := List.getElem?_eq_none (by simp; omega)
          rw [hx1, hy1]

theorem addItems_idem : ∀ (L xs : List MemoryItem),
    addItems (addItems xs L) L = addItems xs L := by
  intro L
  induction L with
  | nil => intro xs; rfl
  | cons a L ih =>
    intro xs
    rw [addItems_cons, addItems_cons]
    rcases addItem_self_at xs a with ⟨q, hqf, hqv⟩
    have hidem := ih (addItem xs a)
    have hfz : findIndex (fun i => i.id = a.id) (addItems (addItem xs a) L) = some q :=
      findIndex_ids_addItems L hqf
    by_cases hex : ∃ b ∈ L, b.id = a.id
    · rcases hex with ⟨b₀, hb₀, hbid⟩
      rw [addItem_eq_set hfz]
      rcases findIndex_some_spec _ _ _ hfz with ⟨x, hxv, hxp⟩
      have hxid : x.id = a.id := by simpa using hxp
      have hs : SameIds (addItems (addItem xs a) L)
          ((addItems (addItem xs a) L).set q a) := by
        unfold SameIds
        rw [ids_set_of_same hxv hxid]
      have hc : ∀ p : Nat,
          ((addItems (addItem xs a) L).set q a)[p]? = (addItems (addItem xs a) L)[p]? ∨
          ∃ b ∈ L, findIndex (fun i => i.id = b.id) (addItems (addItem xs a) L) = some p := by
        intro p
        by_cases hpq : p = q
        · subst hpq
          right
          refine ⟨b₀, hb₀, ?_⟩
          simp only [hbid]
          exact hfz
        · left
          exact getElem?_set_ne' _ _ _ _ (fun he => hpq he.symm)
      rw [← addItems_congr_overwrite L _ _ hs hc]
      exact hidem
    · push_neg at hex
      have hzq : (addItems (addItem xs a) L)[q]? = some a :=
        addItems_untouched L (addItem xs a) q a hqv hex
      rw [addItem_eq_set hfz, set_getElem?_self _ _ _ hzq]
      exact hidem

/-- C10: applying a MemoryDelta twice with `applyMemoryDelta` leaves the
memory in the same state as applying it once: every added item is
upserted by id, so the second application replaces each item with an
identical copy and neither duplicates items nor changes any category. -/
theorem claim_C10 (m : Memory) (d : MemoryDelta) :
    applyMemoryDelta (applyMemoryDelta m d) d = applyMemoryDelta m d := by
  simp only [applyMemoryDelta, addItems_idem]

/-- `SessionEvent` (SessionEventSchema): `nodeId` and `stepId` are
optional; `refs` and `payload` never enter the computations modelled
here and are elided. -/
structure SessionEvent where
  runId : String
  nodeId : Option String
  stepId : Option String
  type : String
  ts : String
deriving DecidableEq, Repr

/-- The `span` object of a compaction event. -/
structure CompactionSpan where
  fromEventId : String
  toEventId : String
deriving DecidableEq, Repr

/-- `CompactionEvent` (CompactionEventSchema); the summary and the
artifact index do not enter the span computation and are elided. -/
structure CompactionEvent where
  runId : String
  nodeId : Option String
  span : CompactionSpan
  createdAt : String
deriving DecidableEq, Repr

/-- The per-run session log: the parsed `events.jsonl` and
`compactions.jsonl` files of one run. -/
structure RunLog where
  events : List SessionEvent
  compactions : List CompactionEvent
deriving DecidableEq, Repr

/-- The composite identity recomputed inside `getUncompactedEvents`:
the template literal `runId:nodeId:stepId:type:ts`, in which an absent
nodeId or stepId renders as the string "undefined" (unlike
`generateEventId`, which substitutes the empty string). -/
def eventKey (e : SessionEvent) : String :=
  e.runId ++ ":" ++ jsShow e.nodeId ++ ":" ++ jsShow e.stepId ++ ":" ++
    e.type ++ ":" ++ e.ts

/-- `SessionStore.getEvents({runId})` with no optional filters: every
event of the run's append-only file, in order. -/
def getEvents (log : RunLog) : List SessionEvent := log.events

/-- `SessionStore.getUncompactedEvents`. -/
def getUncompactedEvents (log : RunLog) : List SessionEvent :=
  if log.compactions.length = 0 then log.events
  else
    match log.compactions.getLast? with
    | none => log.events
    | some latest =>
      match findIndex (fun e => eventKey e = latest.span.toEventId) log.events with
      | none => log.events
      | some idx => log.events.drop (idx + 1)

theorem findIndex_eq_some_of_first {α : Type} (p : α → Bool) :
    ∀ (l : List α) (i : Nat) (x : α), l[i]? = some x → p x = true →
      (∀ (j : Nat) (y : α), j < i → l[j]? = some y → p y = false) →
      findIndex p l = some i := by
  intro l
  induction l with
  | nil => intro i x h; cases h
  | cons a t ih =>
    intro i x hx hpx hfirst
    cases i with
    | zero =>
      simp only [List.getElem?_cons_zero, Option.some.injEq] at hx
      subst hx
      simp [findIndex, hpx]
    | succ j =>
      have hpa : p a = false := hfirst 0 a (Nat.succ_pos j) (by simp)
      rw [List.getElem?_cons_succ] at hx
      have hrec := ih j x hx hpx
        (fun k y hk hy => hfirst (k + 1) y (Nat.succ_lt_succ hk)
          (by rw [List.getElem?_cons_succ]; exact hy))
      simp [findIndex, hpa, hrec]

theorem findIndex_eq_none_of_all {α : Type} (p : α → Bool) :
    ∀ l : List α, (∀ x ∈ l, p x = false) → findIndex p l = none := by
  intro l
  induction l with
  | nil => intro _; rfl
  | cons a t ih =>
    intro h
    have hpa : p a = false := h a (List.mem_cons_self a t)
    have hrec := ih (fun x hx => h x (List.mem_cons_of_mem a hx))
    simp [findIndex, hpa, hrec]

/-- C7: with at least one recorded compaction, `getUncompactedEvents`
returns exactly the events strictly after the first event whose
recomputed composite identity equals the latest compaction's
`span.toEventId`, while `getEvents({runId})` still returns the full
original history; if no event matches the boundary, all events are
returned. -/
theorem claim_C7 (log : RunLog) (latest : CompactionEvent)
    (hlast : log.compactions.getLast? = some latest) :
    getEvents log = log.events ∧
    (∀ (i : Nat) (e : SessionEvent), log.events[i]? = some e →
      eventKey e = latest.span.toEventId →
      (∀ (j : Nat) (f : SessionEvent), j < i → log.events[j]? = some f →
        eventKey f ≠ latest.span.toEventId) →
      getUncompactedEvents log = log.events.drop (i + 1)) ∧
    ((∀ f ∈ log.events, eventKey f ≠ latest.span.toEventId) →
      getUncompactedEvents log = log.events) := by
  have hne : ¬ log.compactions.length = 0 := by
    intro h0
    rw [List.length_eq_zero.mp h0] at hlast
    cases hlast
  refine ⟨rfl, ?_, ?_⟩
  · intro i e hi hkey hfirst
    unfold getUncompactedEvents
    rw [if_neg hne, hlast]
    have hfi : findIndex (fun e => eventKey e = latest.span.toEventId) log.events =
        some i := by
      apply findIndex_eq_some_of_first _ _ _ _ hi (by simp [hkey])
      intro j y hj hy
      simp [hfirst j y hj hy]
    change (match findIndex (fun e => eventKey e = latest.span.toEventId) log.events with
      | none => log.events
      | some idx => List.drop (idx + 1) log.events) = _
    rw [hfi]
  · intro hnone
    unfold getUncompactedEvents
    rw [if_neg hne, hlast]
    have hfi : findIndex (fun e => eventKey e = latest.span.toEventId) log.events =
        none := by
      apply findIndex_eq_none_of_all
      intro x hx
      simp [hnone x hx]
    change (match findIndex (fun e => eventKey e = latest.span.toEventId) log.events with
      | none => log.events
      | some idx => List.drop (idx + 1) log.events) = _
    rw [hfi]

/-- Concrete two-event run with one compaction for the C7 witness: the
boundary id matches the first event, whose optional fields render as
"undefined". -/
def eC7a : SessionEvent := ⟨"r1", none, none, "log", "2025-01-01T00:00:00Z"⟩

def eC7b : SessionEvent := ⟨"r1", some "n1", some "s1", "log", "2025-01-01T00:00:01Z"⟩

def compC7 : CompactionEvent :=
  ⟨"r1", none,
    ⟨"r1:undefined:undefined:log:2025-01-01T00:00:00Z",
     "r1:undefined:undefined:log:2025-01-01T00:00:00Z"⟩,
    "2025-01-01T00:00:02Z"⟩

def logC7 : RunLog := ⟨[eC7a, eC7b], [compC7]⟩

theorem claim_C7_witness :
    logC7.compactions.getLast? = some compC7 ∧
    getEvents logC7 = logC7.events ∧
    getUncompactedEvents logC7 = [eC7b] := by
  refine ⟨rfl, (claim_C7 logC7 compC7 rfl).1, ?_⟩
  have h := (claim_C7 logC7 compC7 rfl).2.1 0 eC7a (by decide) (by decide)
    (fun j f hj _ => absurd hj (Nat.not_lt_zero j))
  exact h

/-- A retrieval hit (`MemoryHit`). -/
structure MemoryHit where
  item : MemoryItem
  category : String
  score : ℚ
deriving DecidableEq, Repr

/-- A `MemoryQuery` with the optional numeric fields: `k = 0` models an
absent `k` (`query.k || 10`) and `minConfidence = 0` an absent
`minConfidence` (`query.minConfidence || 0`); the optional category
filter is left at its default (all five categories). -/
structure MemoryQuery where
  query : String
  k : Nat
  minConfidence : ℚ
deriving DecidableEq, Repr

/-- `toLowerCase` on the code points of a string (ASCII model of the JS
Unicode lowering: the stored texts and queries considered here are
ASCII). -/
def lowerCodes (s : String) : List Nat :=
  s.data.map (fun c => if 65 ≤ c.toNat ∧ c.toNat ≤ 90 then c.toNat + 32 else c.toNat)

/-- JS `\s` on the ASCII range: space, tab, LF, VT, FF, CR. -/
def isWsCode (n : Nat) : Bool :=
  n = 32 ∨ n = 9 ∨ n = 10 ∨ n = 11 ∨ n = 12 ∨ n = 13

/-- `query.toLowerCase().split(/\s+/).filter(Boolean)`: the maximal
non-whitespace runs (splitting on whitespace runs can only add empty
strings at the ends, which `filter(Boolean)` removes). -/
def wsSplitGo (acc : List Nat) : List Nat → List (List Nat)
  | [] => if acc.isEmpty then [] else [acc.reverse]
  | c :: rest =>
    if isWsCode c then
      if acc.isEmpty then wsSplitGo [] rest else acc.reverse :: wsSplitGo [] rest
    else wsSplitGo (c :: acc) rest

def queryTerms (q : String) : List (List Nat) := wsSplitGo [] (lowerCodes q)

def isPrefixOfB : List Nat → List Nat → Bool
  | [], _ => true
  | _ :: _, [] => false
  | a :: as, b :: bs => if a = b then isPrefixOfB as bs else false

/-- JS `String.prototype.includes` on code-point lists. -/
def isSubstr : List Nat → List Nat → Bool
  | needle, [] => needle.isEmpty
  | needle, c :: rest =>
    if isPrefixOfB needle (c :: rest) then true else isSubstr needle rest

/-- The `matchCount` loop of `retrieve`: how many query terms occur as
substrings of the lowercased item text. -/
def matchCount (terms : List (List Nat)) (textLower : List Nat) : Nat :=
  (terms.filter (fun t => isSubstr t textLower)).length

/-- Rational multiplication in the normalised-fraction form (definitionally
equal to `·*·` by `ratMul_eq`; spelled out so that concrete scores evaluate). -/
def ratMul (a b : ℚ) : ℚ := mkRat (a.num * b.num) (a.den * b.den)

/-- The per-category inner loop of `retrieve`: skip items below
`minConfidence`, keep items matching at least one term, score =
(matched / total terms) × confidence. -/
def categoryHits (cat : String) (items : List MemoryItem)
    (terms : List (List Nat)) (minConfidence : ℚ) : List MemoryHit :=
  items.filterMap (fun item =>
    if item.confidence < minConfidence then none
    else if 0 < matchCount terms (lowerCodes item.text) then
      some ⟨item, cat,
        ratMul (mkRat (matchCount terms (lowerCodes item.text)) terms.length)
          item.confidence⟩
    else none)

/-- All hits, in category order facts, constraints, preferences,
tactics, pitfalls (the default category list). -/
def allHits (m : Memory) (q : MemoryQuery) : List MemoryHit :=
  categoryHits "facts" m.facts (queryTerms q.query) (jsOrRat q.minConfidence 0) ++
  categoryHits "constraints" m.constraints (queryTerms q.query) (jsOrRat q.minConfidence 0) ++
  categoryHits "preferences" m.preferences (queryTerms q.query) (jsOrRat q.minConfidence 0) ++
  categoryHits "tactics" m.tactics (queryTerms q.query) (jsOrRat q.minConfidence 0) ++
  categoryHits "pitfalls" m.pitfalls (queryTerms q.query) (jsOrRat q.minConfidence 0)

instance : DecidableRel (fun a b : MemoryHit => b.score < a.score) :=
  fun a b => inferInstanceAs (Decidable (b.score < a.score))

/-- `MemoryStore.retrieve`: sort all hits by score descending (the JS
engine sort is stable, so ties keep category/insertion order, which the
strict-comparison insertion sort reproduces) and truncate to k. -/
def retrieve (m : Memory) (q : MemoryQuery) : List MemoryHit :=
  (List.insertionSort (fun a b => b.score < a.score) (allHits m q)).take (jsOrNat q.k 10)

theorem mkRat_div_eq (m n : Nat) : mkRat m n = (m : ℚ) / (n : ℚ) := by
  rw [Rat.mkRat_eq_div]
  push_cast
  rfl

theorem ratMul_eq (a b : ℚ) : ratMul a b = a * b := by
  unfold ratMul
  rw [Rat.mul_def, Rat.mkRat_def]
  rw [dif_neg (Nat.mul_ne_zero a.den_nz b.den_nz)]

theorem pairwise_orderedInsert_desc (x : MemoryHit) :
    ∀ l : List MemoryHit, l.Pairwise (fun a b => b.score ≤ a.score) →
      (List.orderedInsert (fun a b => b.score < a.score) x l).Pairwise
        (fun a b => b.score ≤ a.score) := by
  intro l
  induction l with
  | nil => intro _; simp
  | cons b t ih =>
    intro hp
    rw [List.orderedInsert]
    by_cases hr : b.score < x.score
    · rw [if_pos hr]
      constructor
      · intro y hy
        rcases List.mem_cons.mp hy with hyb | hyt
        · subst hyb; exact le_of_lt hr
        · exact le_trans ((List.pairwise_cons.mp hp).1 y hyt) (le_of_lt hr)
      · exact hp
    · rw [if_neg hr]
      push_neg at hr
      constructor
      · intro y hy
        rcases (List.mem_orderedInsert _).mp hy with hyx | hyt
        · subst hyx; exact hr
        · exact (List.pairwise_cons.mp hp).1 y hyt
      · exact ih (List.pairwise_cons.mp hp).2

theorem pairwise_insertionSort_desc :
    ∀ l : List MemoryHit,
      (List.insertionSort (fun a b => b.score < a.score) l).Pairwise
        (fun a b => b.score ≤ a.score) := by
  intro l
  induction l with
  | nil => simp
  | cons a t ih =>
    rw [List.insertionSort]
    exact pairwise_orderedInsert_desc a _ ih

theorem mem_retrieve_sub {m : Memory} {q : MemoryQuery} {h : MemoryHit}
    (hh : h ∈ retrieve m q) : h ∈ allHits m q := by
  have h1 : h ∈ List.insertionSort (fun a b => b.score < a.score) (allHits m q) :=
    (List.take_sublist _ _).subset hh
  exact (List.perm_insertionSort _ _).mem_iff.mp h1

theorem mem_categoryHits {cat : String} {items : List MemoryItem}
    {terms : List (List Nat)} {minC : ℚ} {h : MemoryHit}
    (hh : h ∈ categoryHits cat items terms minC) :
    h.category = cat ∧ h.item ∈ items ∧ ¬ h.item.confidence < minC ∧
    0 < matchCount terms (lowerCodes h.item.text) ∧
    h.score = ((matchCount terms (lowerCodes h.item.text) : ℚ) /
      ((terms.length : ℚ))) * h.item.confidence := by
  rcases List.mem_filterMap.mp hh with ⟨item, hitem, hf⟩
  by_cases h1 : item.confidence < minC
  · rw [if_pos h1] at hf; cases hf
  · rw [if_neg h1] at hf
    by_cases h2 : 0 < matchCount terms (lowerCodes item.text)
    · rw [if_pos h2] at hf
      cases hf
      refine ⟨rfl, hitem, h1, h2, ?_⟩
      rw [ratMul_eq, mkRat_div_eq]
    · rw [if_neg h2] at hf; cases hf

/-- Scenario C data: a pitfall "connection timeout retry" at confidence
0.9 and an unrelated fact. -/
def pitfallC9 : MemoryItem :=
  ⟨"p1", "connection timeout retry", ["evidence/p1"], mkRat 9 10⟩

def factC9 : MemoryItem := ⟨"f1", "The sky is blue", ["evidence/f1"], mkRat 4 5⟩

def memC9 : Memory := ⟨[factC9], [], [], [], [pitfallC9]⟩

def queryC9 : MemoryQuery := ⟨"timeout", 0, 0⟩

/-- C9: every returned hit matched at least one query term, carries
score (matched terms / total terms) × confidence and stems from one of
the five category collections; the result is sorted by score descending
and truncated to k.  Concretely (Scenario C), querying "timeout" over a
pitfall "connection timeout retry" at confidence 0.9 plus an unrelated
fact returns exactly the pitfall with score 0.9. -/
theorem claim_C9 (m : Memory) (q : MemoryQuery) :
    (retrieve m q).Pairwise (fun a b => b.score ≤ a.score) ∧
    (retrieve m q).length ≤ jsOrNat q.k 10 ∧
    (∀ h ∈ retrieve m q,
      0 < matchCount (queryTerms q.query) (lowerCodes h.item.text) ∧
      h.score = ((matchCount (queryTerms q.query) (lowerCodes h.item.text) : ℚ) /
        (((queryTerms q.query).length : ℚ))) * h.item.confidence ∧
      ¬ h.item.confidence < jsOrRat q.minConfidence 0 ∧
      ((h.category = "facts" ∧ h.item ∈ m.facts) ∨
       (h.category = "constraints" ∧ h.item ∈ m.constraints) ∨
       (h.category = "preferences" ∧ h.item ∈ m.preferences) ∨
       (h.category = "tactics" ∧ h.item ∈ m.tactics) ∨
       (h.category = "pitfalls" ∧ h.item ∈ m.pitfalls))) ∧
    retrieve memC9 queryC9 = [⟨pitfallC9, "pitfalls", (9 : ℚ)/10⟩] := by
  refine ⟨?_, ?_, ?_, ?_⟩
  · exact List.Pairwise.sublist (List.take_sublist _ _) (pairwise_insertionSort_desc _)
  · rw [retrieve, List.length_take]
    exact min_le_left _ _
  · intro h hh
    have hmem := mem_retrieve_sub hh
    unfold allHits at hmem
    rcases List.mem_append.mp hmem with hmem | h5
    rcases List.mem_append.mp hmem with hmem | h4
    rcases List.mem_append.mp hmem with hmem | h3
    rcases List.mem_append.mp hmem with h1 | h2
    · rcases mem_categoryHits h1 with ⟨hc, hi, hcf, hmc, hsc⟩
      exact ⟨hmc, hsc, hcf, Or.inl ⟨hc, hi⟩⟩
    · rcases mem_categoryHits h2 with ⟨hc, hi, hcf, hmc, hsc⟩
      exact ⟨hmc, hsc, hcf, Or.inr (Or.inl ⟨hc, hi⟩)⟩
    · rcases mem_categoryHits h3 with ⟨hc, hi, hcf, hmc, hsc⟩
      exact ⟨hmc, hsc, hcf, Or.inr (Or.inr (Or.inl ⟨hc, hi⟩))⟩
    · rcases mem_categoryHits h4 with ⟨hc, hi, hcf, hmc, hsc⟩
      exact ⟨hmc, hsc, hcf, Or.inr (Or.inr (Or.inr (Or.inl ⟨hc, hi⟩)))⟩
    · rcases mem_categoryHits h5 with ⟨hc, hi, hcf, hmc, hsc⟩
      exact ⟨hmc, hsc, hcf, Or.inr (Or.inr (Or.inr (Or.inr ⟨hc, hi⟩)))⟩
  · rw [show (9 : ℚ)/10 = mkRat 9 10 from (mkRat_div_eq 9 10).symm]
    decide

/-- A parsed playbook bullet (`PlaybookBullet`); the optional `section`
field is modelled as `sect`, with the empty string for an absent
section, matching the `bullet.section || ''` reads. -/
structure PlaybookBullet where
  id : String
  text : String
  sect : String
deriving DecidableEq, Repr

/-- `content.split('\n')`. -/
def splitChar (sep : Char) : List Char → List (List Char)
  | [] => [[]]
  | c :: rest =>
    if c = sep then [] :: splitChar sep rest
    else
      match splitChar sep rest with
      | [] => [[c]]
      | g :: gs => (c :: g) :: gs

/-- The whitespace class used by `\s` and `trim` on the ASCII range
occurring in playbook files. -/
def jsWsChar (c : Char) : Bool := c.isWhitespace

/-- JS `String.prototype.trim`. -/
def trimChars (s : List Char) : List Char :=
  ((s.dropWhile jsWsChar).reverse.dropWhile jsWsChar).reverse

/-- `line.startsWith('## ')`. -/
def isHeaderLine (l : List Char) : Bool := l.take 3 = ['#', '#', ' ']

/-- `line.match(/^[-*]\s+/)`. -/
def isBulletStart (l : List Char) : Bool :=
  match l with
  | c :: d :: _ => (c = '-' ∨ c = '*') ∧ jsWsChar d
  | _ => false

/-- `line.replace(/^[-*]\s+/, '')` on a line that starts a bullet. -/
def bulletRest (l : List Char) : List Char :=
  (l.drop 1).dropWhile jsWsChar

/-- The capture groups of `/^[-*]\s+\[([^\]]+)\]\s*(.*)/` applied after
the bullet marker: the bracketed id (non-empty, no `]`) and the text. -/
def parseIdForm (rest : List Char) : Option (List Char × List Char) :=
  match rest with
  | '[' :: more =>
    match more.dropWhile (fun c => c ≠ ']') with
    | ']' :: tail =>
      if (more.takeWhile (fun c => c ≠ ']')).isEmpty then none
      else some (more.takeWhile (fun c => c ≠ ']'), tail.dropWhile jsWsChar)
    | _ => none
  | _ => none

/-- The line loop of `PlaybookStore.parseBullets`; `sect` is the current
section, `k` counts the uuids drawn for id-less bullets (`uuid k` models
the k-th such draw). -/
def parseBulletsGo (uuid : Nat → String) :
    List (List Char) → List Char → Nat → List PlaybookBullet
  | [], _, _ => []
  | line :: rest, sect, k =>
    if isHeaderLine line then
      parseBulletsGo uuid rest (trimChars (line.drop 3)) k
    else if isBulletStart line then
      match parseIdForm (bulletRest line) with
      | some (idChars, textChars) =>
        ⟨⟨idChars⟩, ⟨textChars⟩, ⟨sect⟩⟩ :: parseBulletsGo uuid rest sect k
      | none =>
        ⟨strTake (uuid k) 8, ⟨bulletRest line⟩, ⟨sect⟩⟩ ::
          parseBulletsGo uuid rest sect (k + 1)
    else parseBulletsGo uuid rest sect k

/-- `PlaybookStore.parseBullets`. -/
def parseBullets (uuid : Nat → String) (content : String) : List PlaybookBullet :=
  parseBulletsGo uuid (splitChar '\n' content.data) [] 0

/-- The `bulletsBySection` JS Map: keys in first-insertion order, values
appended in bullet order. -/
def groupUpsert : List (String × List PlaybookBullet) → String → PlaybookBullet →
    List (String × List PlaybookBullet)
  | [], s, b => [(s, [b])]
  | (k, bs) :: rest, s, b =>
    if k = s then (k, bs ++ [b]) :: rest
    else (k, bs) :: groupUpsert rest s b

def bulletsBySection (bullets : List PlaybookBullet) :
    List (String × List PlaybookBullet) :=
  bullets.foldl (fun m b => groupUpsert m b.sect b) []

/-- `bulletsBySection.get(currentSection) || []`. -/
def lookupGroup (m : List (String × List PlaybookBullet)) (s : String) :
    List PlaybookBullet :=
  match m.find? (fun p => p.1 = s) with
  | some p => p.2
  | none => []

def formatBulletLine (b : PlaybookBullet) : List Char :=
  ("- [" ++ b.id ++ "] " ++ b.text).data

/-- `PlaybookStore.formatBullets`: walk the original lines, re-emit each
section header followed by its grouped bullets, keep other non-bullet
lines, drop original bullet lines. -/
def formatBullets (bullets : List PlaybookBullet) (original : String) : String :=
  ⟨List.intercalate ['\n']
    ((splitChar '\n' original.data).flatMap (fun line =>
      if isHeaderLine line then
        line :: (lookupGroup (bulletsBySection bullets)
          ⟨trimChars (line.drop 3)⟩).map formatBulletLine
      else if isBulletStart line then []
      else [line]))⟩

/-- `read` / `write` dispatch over the three playbook files. -/
def readFile (st : PlaybookState) (f : String) : String :=
  if f = "playbook.md" then st.playbookMd
  else if f = "pitfalls.md" then st.pitfallsMd
  else st.policiesMd

def writeFile (st : PlaybookState) (f : String) (content : String) : PlaybookState :=
  if f = "playbook.md" then { st with playbookMd := content }
  else if f = "pitfalls.md" then { st with pitfallsMd := content }
  else { st with policiesMd := content }

/-- `PlaybookStore.inferSection`. -/
def inferSection (f : String) : String :=
  if f = "playbook.md" then "Tactics That Work"
  else if f = "pitfalls.md" then "Known Failure Modes"
  else if f = "policies.md" then "Guardrails"
  else ""

/-- `b.id === op.bulletId || b.text === op.before` (comparison with an
absent field is false). -/
def matchesBullet (op : PlaybookOp) (b : PlaybookBullet) : Bool :=
  (match op.bulletId with
   | some s => (b.id = s : Bool)
   | none => false) ||
  (match op.before with
   | some s => (b.text = s : Bool)
   | none => false)

/-- `PlaybookStore.applyOp`: read, parse, transform, format, write.
`uuid 0` models the uuidv4 drawn by an ADD with no bulletId; `uuid (i+1)`
the draws for id-less bullets during parsing. -/
def applyOp (uuid : Nat → String) (st : PlaybookState) (op : PlaybookOp) :
    PlaybookState :=
  let content := readFile st op.targetFile
  let bullets := parseBullets (fun i => uuid (i + 1)) content
  let bullets2 :=
    if op.op = "ADD_BULLET" then
      bullets ++ [⟨jsOrStr op.bulletId (strTake (uuid 0) 8), jsOrStr op.after "",
        inferSection op.targetFile⟩]
    else if op.op = "REMOVE_BULLET" then
      match findIndex (matchesBullet op) bullets with
      | some i => bullets.eraseIdx i
      | none => bullets
    else if op.op = "EDIT_BULLET" then
      match findIndex (matchesBullet op) bullets with
      | some i =>
        match bullets[i]?, op.after with
        | some b, some a => if a = "" then bullets else bullets.set i ⟨b.id, a, b.sect⟩
        | _, _ => bullets
      | none => bullets
    else bullets
  writeFile st op.targetFile (formatBullets bullets2 content)

/-- `PlaybookStore.applyDiff`: apply each op in order, then append the
diff to the audit history. -/
def applyDiff (uuid : Nat → String) (st : PlaybookState) (diff : PlaybookDiff) :
    PlaybookState :=
  let st2 := diff.ops.foldl (applyOp uuid) st
  { st2 with diffHistory := st2.diffHistory ++ [diff] }

/-- The inverse-op map of `PlaybookStore.rollback`. -/
def invOp (op : PlaybookOp) : PlaybookOp :=
  if op.op = "ADD_BULLET" then { op with op := "REMOVE_BULLET", before := op.after }
  else if op.op = "REMOVE_BULLET" then { op with op := "ADD_BULLET", after := op.before }
  else if op.op = "EDIT_BULLET" then { op with before := op.after, after := op.before }
  else op

/-- `PlaybookStore.rollback`: find the first historical diff with the
given createdAt, apply its inverse as a new forward diff (never erasing
history). -/
def rollback (uuid : Nat → String) (now : String) (st : PlaybookState)
    (createdAt : String) : Except String PlaybookState :=
  match st.diffHistory.find? (fun d => d.createdAt = createdAt) with
  | none => Except.error ("Diff not found: " ++ createdAt)
  | some d =>
    Except.ok (applyDiff uuid st
      { runId := d.runId ++ "_rollback", nodeId := "rollback",
        ops := d.ops.map invOp, createdAt := now })

/-- Uuid oracle for the playbook scenarios (never consulted: all bullets
carry explicit ids). -/
def uuidC8 : Nat → String := fun _ => "ffffffff"

/-- The default files written by `PlaybookStore.init`. -/
def defaultPlaybookMd : String :=
  "# Playbook\n\n## Tactics That Work\n\n<!-- Bullets will be added here by the curator -->\n\n"

def defaultPitfallsMd : String :=
  "# Pitfalls\n\n## Known Failure Modes\n\n<!-- Bullets will be added here by the curator -->\n\n"

def defaultPoliciesMd : String :=
  "# Policies\n\n## Guardrails\n\n- Always validate inputs before processing\n- Never inject large outputs directly into prompts\n- Stage all memory updates (never write directly)\n- Keep artifact pointers, not raw content\n\n"

def st0C8 : PlaybookState := ⟨defaultPlaybookMd, defaultPitfallsMd, defaultPoliciesMd, []⟩

/-- A REMOVE_BULLET op whose target bullet does not exist. -/
def remOpC8 : PlaybookOp :=
  ⟨"REMOVE_BULLET", "playbook.md", some "deadbeef", none, none, "cleanup", ["e"],
    mkRat 9 10⟩

def diffRemC8 : PlaybookDiff := ⟨"r1", "n1", [remOpC8], "2025-01-01T00:00:00Z"⟩

/-- A playbook whose Tactics section already holds one bullet. -/
def stC8 : PlaybookState :=
  ⟨"# Playbook\n\n## Tactics That Work\n\n- [b1b1b1b1] Keep tests green\n\n<!-- Bullets will be added here by the curator -->\n\n",
   defaultPitfallsMd, defaultPoliciesMd, []⟩

/-- A curator-style ADD_BULLET op with a fresh bullet id. -/
def addOpC8 : PlaybookOp :=
  ⟨"ADD_BULLET", "playbook.md", some "abcd1234", none, some "Use small diffs",
   "Learned from n2", ["e"], mkRat 7 10⟩

def diffAddC8 : PlaybookDiff := ⟨"r2", "n2", [addOpC8], "2025-03-01T00:00:00Z"⟩

/-- The inverse diff `rollback` derives from `diffAddC8` and applies as a
new forward diff. -/
def invDiffAddC8 : PlaybookDiff :=
  ⟨"r2_rollback", "rollback",
   [⟨"REMOVE_BULLET", "playbook.md", some "abcd1234", some "Use small diffs",
     some "Use small diffs", "Learned from n2", ["e"], mkRat 7 10⟩],
   "2025-03-02T00:00:00Z"⟩

set_option maxRecDepth 4000 in
/-- C8 (amended): for the seeded playbook and the fresh-id ADD_BULLET
diff, applying the diff appends exactly the new bullet, and rolling the
diff back restores the playbook's bullet set and leaves the other two
files byte-for-byte unchanged, the sole residual difference being the two
new forward audit entries (the original diff and the inverse diff the
rollback applies). -/
theorem claim_C8 :
    parseBullets uuidC8 (applyDiff uuidC8 stC8 diffAddC8).playbookMd =
      parseBullets uuidC8 stC8.playbookMd ++
        [⟨"abcd1234", "Use small diffs", "Tactics That Work"⟩] ∧
    Except.map
      (fun st2 => (parseBullets uuidC8 st2.playbookMd, st2.pitfallsMd,
        st2.policiesMd, st2.diffHistory))
      (rollback uuidC8 "2025-03-02T00:00:00Z" (applyDiff uuidC8 stC8 diffAddC8)
        "2025-03-01T00:00:00Z") =
    Except.ok (parseBullets uuidC8 stC8.playbookMd, stC8.pitfallsMd,
      stC8.policiesMd, [diffAddC8, invDiffAddC8]) := by
  decide

set_option maxRecDepth 4000 in
/-- C8 counterexample to the unrestricted claim: a REMOVE_BULLET op whose
bullet does not exist is a no-op forward, but its inverse is an
ADD_BULLET, so apply-then-rollback grows the bullet set instead of
restoring it (a bullet with id deadbeef and empty text appears). -/
theorem claim_C8_counterexample :
    parseBullets uuidC8 st0C8.playbookMd = [] ∧
    Except.map (fun st2 => parseBullets uuidC8 st2.playbookMd)
      (rollback uuidC8 "2025-01-02T00:00:00Z" (applyDiff uuidC8 st0C8 diffRemC8)
        "2025-01-01T00:00:00Z") =
    Except.ok [⟨"deadbeef", "", "Tactics That Work"⟩] := by
  decide

end TheAgent
